import Mathlib

/-!
# Verification of the seguro event fragmentation codec and storage engine

This development is a shallow embedding of the event fragmentation codec
(`src/event.c`), the key encoder, batch writer, range reader and clear engine
(`src/fdb.c`) of the seguro repository, together with proofs of the testable
properties stated in its specification.

Machine integers are modelled as `Nat` with explicit `% 2^w` reductions at the
points where the C code can overflow.  Byte buffers are modelled as `List Nat`
(each element one byte).  The FoundationDB store is modelled as an association
list of key/value pairs kept strictly sorted by the byte-lexicographic key
order, with range reads and range clears acting on that list.
-/

namespace Seguro

/-- Modelled from the spec: the constant `OPTIMAL_VALUE_SIZE` (spec name
`OPTIMAL_FRAGMENT_SIZE`) is defined in `fdb_constants.h`, which is not part of
the source tree; the spec and the comment in `event.c` ("10,000 bytes for
FDB"), as well as `MAX_VALUE_SIZE 10000` in `seguro.h` and `db/fdb.h`, give
the value 10000. -/
def OPTIMAL_VALUE_SIZE : Nat := 10000

/-- `#define EXTENDED_HEADER 0x80` from `event.h`. -/
def EXTENDED_HEADER : Nat := 0x80

/-- `#define MAX_HEADER_SIZE 4` from `event.h`. -/
def MAX_HEADER_SIZE : Nat := 4

/-- `#define FDB_KEY_EVENT_LENGTH 8` from `fdb.h`. -/
def FDB_KEY_EVENT_LENGTH : Nat := 8

/-- `#define FDB_KEY_FRAGMENT_LENGTH 4` from `fdb.h`. -/
def FDB_KEY_FRAGMENT_LENGTH : Nat := 4

/-- `#define FDB_KEY_TOTAL_LENGTH (1 + FDB_KEY_EVENT_LENGTH +
FDB_KEY_FRAGMENT_LENGTH)` from `fdb.h`. -/
def FDB_KEY_TOTAL_LENGTH : Nat := 1 + FDB_KEY_EVENT_LENGTH + FDB_KEY_FRAGMENT_LENGTH

/-- Byte `i` of the little-endian in-memory representation of an unsigned
integer: `((uint8_t *)&x)[i]`. -/
def byteAt (i x : Nat) : Nat := x / 2 ^ (8 * i) % 256

/-- The `w` low bytes of `x` in little-endian order, as laid out in memory on
the (little-endian) target platform. -/
def leBytes : Nat → Nat → List Nat
  | 0, _ => []
  | w + 1, x => x % 256 :: leBytes w (x / 256)

/-- Reassemble an unsigned integer from little-endian bytes. -/
def leValue (bs : List Nat) : Nat := bs.foldr (fun b acc => b + 256 * acc) 0

/-- The `w` low bytes of `x` in big-endian order. -/
def beBytes : Nat → Nat → List Nat
  | 0, _ => []
  | w + 1, x => x / 2 ^ (8 * w) % 256 :: beBytes w x

--==============================================================================
-- src/event.c
--==============================================================================

/-- `Event` from `event.h`: `{ uint64_t id; uint64_t data_length; uint8_t
*data; }`.  The buffer is the byte list `data`; `data_length` is its length. -/
structure Event where
  id : Nat
  data : List Nat
  deriving Repr, DecidableEq

/-- `FragmentedEvent` from `event.h`.  `fragments` holds the non-owning views
into the parent event's buffer: view `0` spans `payload_length` bytes from the
start of the buffer, and every later view spans `OPTIMAL_VALUE_SIZE` bytes;
each view is modelled as the byte list the C consumers read through the
pointer. -/
structure FragmentedEvent where
  id : Nat
  num_fragments : Nat
  header : List Nat
  header_length : Nat
  payload_length : Nat
  fragments : List (List Nat)
  deriving Repr, DecidableEq

/-- `build_header` from `event.c`.  The argument is a `uint32_t`; `header[0]`
receives either the count itself (when it is below 128) or
`EXTENDED_HEADER | i` followed by the `i` little-endian bytes of the count.
The C `for` loop over `i = 1 .. MAX_HEADER_SIZE - 2` is unrolled here
(`MAX_HEADER_SIZE` is the compile-time constant 4, so the loop tests
`num_fragments < 256` and `num_fragments < 65536` before the fall-through
case, which truncates the count to its 3 low bytes).  Returns the header
bytes and the header length. -/
def build_header (num_fragments : Nat) : List Nat × Nat :=
  if num_fragments < 128 then
    ([num_fragments % 256], 1)
  else if num_fragments < 256 then
    ((EXTENDED_HEADER ||| 1) :: leBytes 1 num_fragments, 2)
  else if num_fragments < 65536 then
    ((EXTENDED_HEADER ||| 2) :: leBytes 2 num_fragments, 3)
  else
    ((EXTENDED_HEADER ||| (MAX_HEADER_SIZE - 1)) :: leBytes (MAX_HEADER_SIZE - 1) num_fragments,
      MAX_HEADER_SIZE)

/-- `read_header` from `event.c`.  `num_fragments` is the value of the 32-bit
output location *before* the call: the extended branch `memcpy`s only
`header_bytes` bytes over the 4-byte little-endian representation of that
location, leaving its upper bytes unmodified.  Returns the new value of the
output location and the header length. -/
def read_header (header : List Nat) (num_fragments : Nat) : Nat × Nat :=
  let b0 := header.headD 0
  if b0 &&& EXTENDED_HEADER ≠ 0 then
    let header_bytes := b0 ^^^ EXTENDED_HEADER
    (leValue ((header.drop 1).take header_bytes ++ (leBytes 4 num_fragments).drop header_bytes),
      header_bytes + 1)
  else
    (b0, 1)

/-- `fragment_event` from `event.c`.  `num_fragments` is a `uint32_t` (the
`uint64_t` division result is truncated, and the `++num_fragments` increment
wraps); `payload_length` is a `uint16_t` (the remainder is below
`OPTIMAL_VALUE_SIZE`, so no reduction is needed).  Fragment view `0` is the
event buffer read for `payload_length` bytes; view `i > 0` starts at offset
`payload_length + (i-1)*OPTIMAL_VALUE_SIZE` and is read for
`OPTIMAL_VALUE_SIZE` bytes.  The header encodes the number of additional
fragments, `num_fragments - 1` computed on `uint32_t`. -/
def fragment_event (event : Event) : FragmentedEvent :=
  let num_fragments0 := event.data.length / OPTIMAL_VALUE_SIZE % 2 ^ 32
  let payload_length0 := event.data.length % OPTIMAL_VALUE_SIZE
  let payload_length := if payload_length0 = 0 then OPTIMAL_VALUE_SIZE else payload_length0
  let num_fragments :=
    if payload_length0 = 0 then num_fragments0 else (num_fragments0 + 1) % 2 ^ 32
  let fragments := (List.range num_fragments).map fun i =>
    if i = 0 then
      event.data.take payload_length
    else
      (event.data.drop (payload_length + (i - 1) * OPTIMAL_VALUE_SIZE)).take OPTIMAL_VALUE_SIZE
  let hdr := build_header ((num_fragments + 2 ^ 32 - 1) % 2 ^ 32)
  { id := event.id
    num_fragments := num_fragments
    header := hdr.1
    header_length := hdr.2
    payload_length := payload_length
    fragments := fragments }

--==============================================================================
-- The FoundationDB store model
--==============================================================================

/-- A FoundationDB key: a byte string. -/
abbrev Key := List Nat

/-- A FoundationDB value: a byte string. -/
abbrev Value := List Nat

/-- Byte-lexicographic order on keys, the order FoundationDB sorts keys by
(a proper prefix sorts before its extensions). -/
def keyLt : Key → Key → Bool
  | [], [] => false
  | [], _ :: _ => true
  | _ :: _, [] => false
  | a :: as, b :: bs => if a < b then true else if b < a then false else keyLt as bs

/-- The store: an association list of key/value pairs, kept strictly sorted by
`keyLt`. -/
abbrev Store := List (Key × Value)

/-- A single `fdb_transaction_set` operation. -/
abbrev Op := Key × Value

/-- Apply one set operation to the store, keeping it sorted (an existing value
under the same key is overwritten). -/
def storeSet (s : Store) (k : Key) (v : Value) : Store :=
  match s with
  | [] => [(k, v)]
  | (k', v') :: rest =>
    if keyLt k k' then (k, v) :: (k', v') :: rest
    else if k = k' then (k, v) :: rest
    else (k', v') :: storeSet rest k v

/-- Commit a transaction: apply its set operations to the store in order. -/
def commitTx (s : Store) (tx : List Op) : Store :=
  tx.foldl (fun st op => storeSet st op.1 op.2) s

/-- Look up the value stored under a key. -/
def storeGet (s : Store) (k : Key) : Option Value :=
  (s.find? fun kv => kv.1 == k).map (·.2)

/-- `fdb_transaction_get_range` over `[lo, hi)`, returning all matching pairs
in key order (the single-page result used by the reader). -/
def storeGetRange (lo hi : Key) (s : Store) : Store :=
  s.filter fun kv => !keyLt kv.1 lo && keyLt kv.1 hi

/-- `fdb_transaction_clear_range` over `[lo, hi)`: only the pairs outside the
range survive. -/
def storeClearRange (lo hi : Key) (s : Store) : Store :=
  s.filter fun kv => keyLt kv.1 lo || !keyLt kv.1 hi

--==============================================================================
-- src/fdb.c
--==============================================================================

/-- `fdb_build_event_key` from `fdb.c`: write a zero prefix byte, then the 8
bytes of the event id in big-endian order (positions `FDB_KEY_EVENT_LENGTH -
i` receive little-endian byte `i` of the id), then the 4 bytes of the
fragment index in big-endian order (positions `FDB_KEY_TOTAL_LENGTH - (i+1)`
receive little-endian byte `i` of the index). -/
def fdb_build_event_key (key : Nat) (fragment : Nat) : Key :=
  let k0 := (List.replicate FDB_KEY_TOTAL_LENGTH 0).set 0 0
  let k1 := (List.range FDB_KEY_EVENT_LENGTH).foldl
    (fun k i => k.set (FDB_KEY_EVENT_LENGTH - i) (byteAt i key)) k0
  (List.range FDB_KEY_FRAGMENT_LENGTH).foldl
    (fun k i => k.set (FDB_KEY_TOTAL_LENGTH - (i + 1)) (byteAt i fragment)) k1

/-- `add_event_set_transactions` from `fdb.c`: add at most `limit` fragment
set operations for `event` to a transaction, starting at fragment
`start_pos`.  When `start_pos` is 0 the first operation's value is the header
(`header_length` bytes) followed by the first fragment view read for
`payload_length` bytes; every other operation's value is the fragment view
read for `OPTIMAL_VALUE_SIZE` bytes.  Returns the operations added and the
returned count `num_kvp = end_pos - start_pos`. -/
def add_event_set_transactions (event : FragmentedEvent) (start_pos limit : Nat) :
    List Op × Nat :=
  let max_pos := start_pos + limit
  let end_pos := min max_pos event.num_fragments
  let num_kvp := end_pos - start_pos
  let firstOps : List Op :=
    if start_pos = 0 then
      [(fdb_build_event_key event.id 0,
        event.header.take event.header_length ++
          (event.fragments.headD []).take event.payload_length)]
    else []
  let start_pos' := if start_pos = 0 then 1 else start_pos
  let restOps := (List.range' start_pos' (end_pos - start_pos')).map fun i =>
    (fdb_build_event_key event.id i, (event.fragments.getD i []).take OPTIMAL_VALUE_SIZE)
  (firstOps ++ restOps, num_kvp)

/-- `fdb_write_event` from `fdb.c`: write the event's fragments in maximal
batches of `batch_size` set operations, committing after each batch.  The
`while` loop is modelled with explicit fuel; `none` means the fuel ran out,
which for `batch_size = 0` corresponds to the C loop never terminating. -/
def writeEventLoop (batch_size : Nat) (event : FragmentedEvent) :
    Nat → Nat → Store → Option Store
  | 0, _, _ => none
  | fuel + 1, i, store =>
    if i < event.num_fragments then
      let (ops, num) := add_event_set_transactions event i batch_size
      writeEventLoop batch_size event fuel (i + num) (commitTx store ops)
    else
      some store

def fdb_write_event (store : Store) (event : FragmentedEvent) (batch_size : Nat) :
    Option Store :=
  writeEventLoop batch_size event (event.num_fragments + 1) 0 store

/-- Transient state of `fdb_write_event_array`: the events not yet fully
written (the current event at the head, mirroring `events + i`), the current
fragment offset `frag_pos`, the running `batch_filled` counter, the set
operations accumulated in the open transaction, and the transactions
committed so far. -/
structure WriterState where
  pending : List FragmentedEvent
  frag_pos : Nat
  batch_filled : Nat
  tx : List Op
  committed : List (List Op)
  deriving Repr, DecidableEq

/-- One iteration of the `while` loop of `fdb_write_event_array`: add as many
unwritten fragments of the current event as fit, advance to the next event
when the current one is exhausted, and commit (and reset) the open
transaction when the batch is filled. -/
def writeArrayStep (batch_size : Nat) (s : WriterState) : WriterState :=
  match s.pending with
  | [] => s
  | event :: rest =>
    let limit := if s.batch_filled = 0 then batch_size else batch_size - s.batch_filled
    let (ops, num) := add_event_set_transactions event s.frag_pos limit
    let batch_filled := if s.batch_filled = 0 then num else s.batch_filled + num
    let frag_pos := s.frag_pos + num
    let tx := s.tx ++ ops
    let (pending, frag_pos) :=
      if frag_pos = event.num_fragments then (rest, 0) else (event :: rest, frag_pos)
    if batch_filled = batch_size then
      { pending := pending, frag_pos := frag_pos, batch_filled := 0, tx := [],
        committed := s.committed ++ [tx] }
    else
      { pending := pending, frag_pos := frag_pos, batch_filled := batch_filled, tx := tx,
        committed := s.committed }

/-- The `while (i < num_events)` loop of `fdb_write_event_array`, with
explicit fuel. -/
def writeArrayLoop (batch_size : Nat) : Nat → WriterState → Option WriterState
  | 0, _ => none
  | fuel + 1, s =>
    match s.pending with
    | [] => some s
    | _ :: _ => writeArrayLoop batch_size fuel (writeArrayStep batch_size s)

/-- Total number of fragments over an event array. -/
def totalFragments (events : List FragmentedEvent) : Nat :=
  (events.map (·.num_fragments)).sum

/-- `fdb_write_event_array` from `fdb.c`: run the batching loop over all
events, then always send the final (possibly empty) transaction.  The result
is the list of committed transactions in commit order; `none` corresponds to
the C loop never terminating (possible only for `batch_size = 0`). -/
def fdb_write_event_array (events : List FragmentedEvent) (batch_size : Nat) :
    Option (List (List Op)) :=
  let fuel := totalFragments events + events.length + 1
  (writeArrayLoop batch_size fuel
      { pending := events, frag_pos := 0, batch_filled := 0, tx := [], committed := [] }).map
    fun s => s.committed ++ [s.tx]

/-- `fdb_read_event` from `fdb.c`, for a read whose range `[key(id, 0),
key(id+1, 0))` is returned in a single page (`out_more` false after the first
iteration of the `do` loop).  The header of the first value gives the number
of additional fragments (the 32-bit output location starts at 0);
`payload_length` is the first value's length minus the header length;
`data_length` is computed on `uint32_t`.  Every later value must be exactly
`OPTIMAL_VALUE_SIZE` bytes and the number of keys must equal the incremented
fragment count, otherwise the assembled buffer is freed and an error is
returned (`none`).  On success the reconstructed `data_length` and buffer are
returned.  An empty page makes the C code dereference `out_kv[0]`, which is
undefined; the model returns `none` there. -/
def fdb_read_event (store : Store) (id : Nat) : Option (Nat × List Nat) :=
  let range_start_key := fdb_build_event_key id 0
  let range_end_key := fdb_build_event_key (id + 1) 0
  match storeGetRange range_start_key range_end_key store with
  | [] => none
  | kv0 :: rest =>
    let v0 := kv0.2
    let (decoded, header_length) := read_header v0 0
    let payload_length := v0.length - header_length
    let data_length := (decoded * OPTIMAL_VALUE_SIZE % 2 ^ 32 + payload_length) % 2 ^ 32
    let first := (v0.drop header_length).take payload_length
    let num_fragments := (decoded + 1) % 2 ^ 32
    let restVals := rest.map (·.2)
    if restVals.all fun v => v.length == OPTIMAL_VALUE_SIZE then
      if num_fragments = (kv0 :: rest).length then
        some (data_length, first ++ restVals.flatten)
      else none
    else none

/-- `add_event_clear_transaction` from `fdb.c`: the cleared range is
`[key(id, 0), key(id, num_fragments))`. -/
def add_event_clear_transaction (event : FragmentedEvent) : Key × Key :=
  (fdb_build_event_key event.id 0, fdb_build_event_key event.id event.num_fragments)

/-- `fdb_clear_event` from `fdb.c`: commit a single range clear over the
event's key span. -/
def fdb_clear_event (store : Store) (event : FragmentedEvent) : Store :=
  let range := add_event_clear_transaction event
  storeClearRange range.1 range.2 store

--==============================================================================
-- Byte-encoding lemmas
--==============================================================================

theorem leBytes_length (w x : Nat) : (leBytes w x).length = w := by
  induction w generalizing x with
  | zero => rfl
  | succ w ih => simp [leBytes, ih]

theorem leValue_append (a b : List Nat) :
    leValue (a ++ b) = leValue a + 256 ^ a.length * leValue b := by
  induction a with
  | nil => simp [leValue]
  | cons x xs ih =>
    simp only [List.cons_append, leValue, List.foldr_cons] at *
    rw [ih, List.length_cons]; ring

theorem leValue_leBytes (w x : Nat) : leValue (leBytes w x) = x % 2 ^ (8 * w) := by
  induction w generalizing x with
  | zero => simp [leBytes, leValue, Nat.mod_one]
  | succ w ih =>
    have h2 : 2 ^ (8 * (w + 1)) = 256 * 2 ^ (8 * w) := by ring
    simp only [leBytes, leValue, List.foldr_cons] at *
    rw [ih, h2, Nat.mod_mul]

theorem leBytes_drop (w k x : Nat) (h : k ≤ w) :
    (leBytes w x).drop k = leBytes (w - k) (x / 2 ^ (8 * k)) := by
  induction k generalizing w x with
  | zero => simp
  | succ k ih =>
    match w, h with
    | w + 1, h =>
      have hk : k ≤ w := Nat.lt_succ_iff.mp h
      have : x / 256 / 2 ^ (8 * k) = x / 2 ^ (8 * (k + 1)) := by
        rw [Nat.div_div_eq_div_mul]
        congr 1
        ring
      simp [leBytes, ih w (x / 256) hk, this]

set_option maxRecDepth 4096 in
theorem land_128_of_lt {a : Nat} (h : a < 128) : a &&& 128 = 0 := by
  revert h
  have : ∀ a, a < 128 → a &&& 128 = 0 := by decide
  exact this a

set_option maxRecDepth 4096 in
theorem land_128_of_ge {a : Nat} (h1 : 128 ≤ a) (h2 : a < 256) : a &&& 128 ≠ 0 := by
  revert h1 h2
  have : ∀ a, a < 256 → 128 ≤ a → a &&& 128 ≠ 0 := by decide
  intro h1 h2
  exact this a h2 h1

set_option maxRecDepth 4096 in
theorem xor_128_of_ge {a : Nat} (h1 : 128 ≤ a) (h2 : a < 256) : a ^^^ 128 = a - 128 := by
  revert h1 h2
  have : ∀ a, a < 256 → 128 ≤ a → a ^^^ 128 = a - 128 := by decide
  intro h1 h2
  exact this a h2 h1

--==============================================================================
-- Claim C2: fragment counts
--==============================================================================

/-- Claim C2, evaluated at the failing input: a zero-length event.  The claim
(and the spec, twice) requires exactly one fragment with `payload_length = 0`
for a zero-length event, but `fragment_event` leaves `num_fragments` at `0 /
OPTIMAL_VALUE_SIZE = 0` (the `++num_fragments` branch is not taken because
the remainder is zero) and sets `payload_length` to `OPTIMAL_VALUE_SIZE`, so
the event has zero fragments; the unconditional `fragments[0] = event->data`
store in the C code then writes past the zero-length `malloc` allocation, and
the header encodes `(uint32_t)(0 - 1) = 2^32 - 1` additional fragments. -/
theorem c2_zero_length_event :
    (fragment_event ⟨1, []⟩).num_fragments = 0 ∧
    (fragment_event ⟨1, []⟩).payload_length = OPTIMAL_VALUE_SIZE ∧
    (fragment_event ⟨1, []⟩).fragments = [] ∧
    (fragment_event ⟨1, []⟩).header = [131, 255, 255, 255] := by
  refine ⟨rfl, rfl, rfl, ?_⟩
  decide

--==============================================================================
-- Claim C3: header round-trip
--==============================================================================

/-- Claim C3 as stated is false at `n = 16777216`: `build_header` keeps only
the 3 low little-endian bytes of the count (its own comment notes it is wrong
for counts of `2^24` and above), so decoding returns 0, not `16777216`. -/
theorem c3_counterexample :
    read_header (build_header 16777216).1 0 ≠ (16777216, (build_header 16777216).2) := by
  decide

/-- Claim C3, amended: for every `n` in the claim's value set except
`16777216`, decoding the header produced by `build_header n` (with the output
location initially zero) recovers `n` and the header length `build_header`
returned; at `n = 16777216` the count is truncated to its 3 low bytes, so
decoding returns `(0, 4)`. -/
theorem c3_header_round_trip :
    (∀ n ∈ [0, 1, 127, 128, 255, 256, 65535, 65536, 16777215],
      read_header (build_header n).1 0 = (n, (build_header n).2)) ∧
    read_header (build_header 16777216).1 0 = (0, (build_header 16777216).2) := by
  decide

--==============================================================================
-- Claim C7: no validation of the declared extension length
--==============================================================================

/-- Claim C7 as stated is false: `read_header` has no failure path.  On the
concrete header `[0x84, 1, 0, 0, 0]`, whose first byte declares 4 extension
bytes — more than `MAX_HEADER_SIZE - 1 = 3` — it decodes normally, returning
the count 1 and header length 5 instead of an error. -/
theorem c7_counterexample :
    (132 : Nat) ^^^ EXTENDED_HEADER > MAX_HEADER_SIZE - 1 ∧
    read_header [132, 1, 0, 0, 0] 0 = (1, 5) := by
  decide

/-- Claim C7, amended: `read_header` never validates the declared extension
length and has no failure path.  A first byte of `EXTENDED_HEADER | 4`
(declaring 4 extension bytes, which exceeds `MAX_HEADER_SIZE - 1 = 3`) is
decoded normally whatever the prior contents of the output location: the 4
declared bytes replace the whole 32-bit output and the returned header length
is 5.  (For declared lengths above 4 the C `memcpy` runs past the 4-byte
output location — undefined behavior, not a clean failure.) -/
theorem c7_no_validation (rest : List Nat) (prior : Nat)
    (h : MAX_HEADER_SIZE ≤ rest.length) :
    read_header ((EXTENDED_HEADER ||| MAX_HEADER_SIZE) :: rest) prior =
      (leValue (rest.take MAX_HEADER_SIZE), MAX_HEADER_SIZE + 1) := by
  have hb0 : (EXTENDED_HEADER ||| MAX_HEADER_SIZE : Nat) = 132 := by decide
  have hdrop : (leBytes 4 prior).drop 4 = [] := by
    apply List.drop_of_length_le
    rw [leBytes_length]
  rw [hb0]
  show read_header (132 :: rest) prior = (leValue (rest.take 4), 5)
  have hland : ¬(132 : Nat) &&& EXTENDED_HEADER = 0 := by decide
  have hxor : (132 : Nat) ^^^ EXTENDED_HEADER = 4 := by decide
  simp only [read_header, List.headD_cons]
  rw [if_pos hland, hxor]
  simp [hdrop]

theorem c7_no_validation_witness :
    MAX_HEADER_SIZE ≤ ([1, 0, 0, 0] : List Nat).length ∧
    read_header ((EXTENDED_HEADER ||| MAX_HEADER_SIZE) :: [1, 0, 0, 0]) 99 =
      (leValue ([1, 0, 0, 0].take MAX_HEADER_SIZE), MAX_HEADER_SIZE + 1) :=
  ⟨by decide, c7_no_validation [1, 0, 0, 0] 99 (by decide)⟩

--==============================================================================
-- Claim C10: the partial overwrite in read_header
--==============================================================================

/-- Claim C10: for an extended header whose first byte declares
`header_bytes` extension bytes, `read_header` overwrites only the low
`header_bytes` bytes of the 32-bit output location: the decoded count is the
little-endian value of the copied bytes plus the untouched upper bytes of the
prior value, so decoding recovers the encoded count only when those upper
bytes are zero (e.g. when the caller pre-zeroes the location).  The two
concrete conjuncts show the decoded result is not a function of the header
bytes alone: the same header `[0x81, 5]` decodes to 5 or 261 depending on the
prior value. -/
theorem c10_partial_overwrite (b0 : Nat) (rest : List Nat) (prior : Nat)
    (hlo : 128 ≤ b0) (hhi : b0 < 256) (hb4 : b0 - 128 ≤ 4)
    (hrest : b0 - 128 ≤ rest.length) :
    (read_header (b0 :: rest) prior).1 =
      leValue (rest.take (b0 - 128)) +
        2 ^ (8 * (b0 - 128)) * (prior % 2 ^ 32 / 2 ^ (8 * (b0 - 128))) ∧
    (read_header [129, 5] 0).1 = 5 ∧ (read_header [129, 5] 256).1 = 261 := by
  refine ⟨?_, by decide, by decide⟩
  have hland : ¬b0 &&& EXTENDED_HEADER = 0 := land_128_of_ge hlo hhi
  have hxor : b0 ^^^ EXTENDED_HEADER = b0 - 128 := xor_128_of_ge hlo hhi
  simp only [read_header, List.headD_cons]
  rw [if_pos hland, hxor]
  simp only [List.drop_succ_cons, List.drop_zero]
  rw [leBytes_drop 4 (b0 - 128) prior hb4, leValue_append, leValue_leBytes,
    List.length_take, Nat.min_eq_left hrest]
  have h1 : (256 : Nat) ^ (b0 - 128) = 2 ^ (8 * (b0 - 128)) := by
    rw [Nat.pow_mul]
  have h2 : prior % 2 ^ 32 / 2 ^ (8 * (b0 - 128)) =
      prior / 2 ^ (8 * (b0 - 128)) % 2 ^ (8 * (4 - (b0 - 128))) := by
    have hsum : 8 * (b0 - 128) + 8 * (4 - (b0 - 128)) = 32 := by omega
    rw [← hsum, Nat.pow_add, Nat.mod_mul_right_div_self]
  rw [h1, ← h2]

theorem c10_partial_overwrite_witness :
    (128 ≤ 130 ∧ 130 < 256 ∧ 130 - 128 ≤ 4 ∧ 130 - 128 ≤ ([1, 2, 9] : List Nat).length) ∧
    ((read_header (130 :: [1, 2, 9]) 16909060).1 =
      leValue ([1, 2, 9].take (130 - 128)) +
        2 ^ (8 * (130 - 128)) * (16909060 % 2 ^ 32 / 2 ^ (8 * (130 - 128))) ∧
    (read_header [129, 5] 0).1 = 5 ∧ (read_header [129, 5] 256).1 = 261) :=
  ⟨⟨by decide, by decide, by decide, by decide⟩,
    c10_partial_overwrite 130 [1, 2, 9] 16909060 (by decide) (by decide) (by decide) (by decide)⟩

--==============================================================================
-- Key order lemmas
--==============================================================================

theorem beBytes_length (w x : Nat) : (beBytes w x).length = w := by
  induction w generalizing x with
  | zero => rfl
  | succ w ih => simp [beBytes, ih]

theorem beBytes_mod (w x : Nat) : beBytes w (x % 2 ^ (8 * w)) = beBytes w x := by
  induction w generalizing x with
  | zero => rfl
  | succ w ih =>
    have hsplit : (2 : Nat) ^ (8 * (w + 1)) = 2 ^ (8 * w) * 256 := by
      rw [show 8 * (w + 1) = 8 * w + 8 by ring, Nat.pow_add]
    have hdvd : (2 : Nat) ^ (8 * w) ∣ 2 ^ (8 * (w + 1)) := by
      rw [hsplit]
      exact Dvd.intro _ rfl
    have hhead : x % 2 ^ (8 * (w + 1)) / 2 ^ (8 * w) % 256 = x / 2 ^ (8 * w) % 256 := by
      rw [hsplit, Nat.mod_mul_right_div_self]
      exact Nat.mod_mod_of_dvd _ (dvd_refl 256)
    have htail : beBytes w (x % 2 ^ (8 * (w + 1))) = beBytes w x := by
      calc beBytes w (x % 2 ^ (8 * (w + 1)))
          = beBytes w (x % 2 ^ (8 * (w + 1)) % 2 ^ (8 * w)) := (ih _).symm
        _ = beBytes w (x % 2 ^ (8 * w)) := by rw [Nat.mod_mod_of_dvd _ hdvd]
        _ = beBytes w x := ih x
    show _ :: _ = _ :: _
    rw [hhead, htail]

/-- Base-`D` digit comparison: `D*qx + rx < D*qy + ry` holds exactly when the
high digits compare strictly or are equal and the low digits compare. -/
theorem digits_lt_iff {D qx rx qy ry : Nat} (hrx : rx < D) (hry : ry < D) :
    D * qx + rx < D * qy + ry ↔ qx < qy ∨ (qx = qy ∧ rx < ry) := by
  constructor
  · intro h
    rcases Nat.lt_trichotomy qx qy with h1 | h1 | h1
    · exact Or.inl h1
    · subst h1
      exact Or.inr ⟨rfl, by omega⟩
    · exfalso
      have h3 : D * (qy + 1) ≤ D * qx := Nat.mul_le_mul_left D h1
      have h4 : D * (qy + 1) = D * qy + D := by ring
      omega
  · rintro (h1 | ⟨rfl, h2⟩)
    · have h3 : D * (qx + 1) ≤ D * qy := Nat.mul_le_mul_left D h1
      have h4 : D * (qx + 1) = D * qx + D := by ring
      omega
    · omega

theorem keyLt_cons (a b : Nat) (as bs : List Nat) :
    keyLt (a :: as) (b :: bs) =
      if a < b then true else if b < a then false else keyLt as bs := rfl

/-- Comparing two keys that start with `w`-byte big-endian fields compares the
field values first, then the remainders. -/
theorem keyLt_beBytes_append_iff (w x y : Nat) (s t : List Nat)
    (hx : x < 2 ^ (8 * w)) (hy : y < 2 ^ (8 * w)) :
    (keyLt (beBytes w x ++ s) (beBytes w y ++ t) = true) ↔
      x < y ∨ (x = y ∧ keyLt s t = true) := by
  induction w generalizing x y with
  | zero =>
    have hx0 : x = 0 := by simpa using hx
    have hy0 : y = 0 := by simpa using hy
    subst hx0; subst hy0
    simp [beBytes]
  | succ w ih =>
    have hDpos : (0 : Nat) < 2 ^ (8 * w) := by positivity
    have hsplit : (2 : Nat) ^ (8 * (w + 1)) = 2 ^ (8 * w) * 256 := by
      rw [show 8 * (w + 1) = 8 * w + 8 by ring, Nat.pow_add]
    rw [hsplit] at hx hy
    have hqx : x / 2 ^ (8 * w) < 256 := Nat.div_lt_of_lt_mul hx
    have hqy : y / 2 ^ (8 * w) < 256 := Nat.div_lt_of_lt_mul hy
    have hmx : x / 2 ^ (8 * w) % 256 = x / 2 ^ (8 * w) := Nat.mod_eq_of_lt hqx
    have hmy : y / 2 ^ (8 * w) % 256 = y / 2 ^ (8 * w) := Nat.mod_eq_of_lt hqy
    have hux : beBytes (w + 1) x = x / 2 ^ (8 * w) % 256 :: beBytes w x := rfl
    have huy : beBytes (w + 1) y = y / 2 ^ (8 * w) % 256 :: beBytes w y := rfl
    rw [hux, huy, hmx, hmy]
    have htx : beBytes w x = beBytes w (x % 2 ^ (8 * w)) := (beBytes_mod w x).symm
    have hty : beBytes w y = beBytes w (y % 2 ^ (8 * w)) := (beBytes_mod w y).symm
    simp only [List.cons_append, keyLt_cons]
    rw [htx, hty]
    have iht := ih (x % 2 ^ (8 * w)) (y % 2 ^ (8 * w))
      (Nat.mod_lt _ hDpos) (Nat.mod_lt _ hDpos)
    have hx_eq : 2 ^ (8 * w) * (x / 2 ^ (8 * w)) + x % 2 ^ (8 * w) = x := Nat.div_add_mod x _
    have hy_eq : 2 ^ (8 * w) * (y / 2 ^ (8 * w)) + y % 2 ^ (8 * w) = y := Nat.div_add_mod y _
    have hcmp := @digits_lt_iff (2 ^ (8 * w)) (x / 2 ^ (8 * w))
      (x % 2 ^ (8 * w)) (y / 2 ^ (8 * w)) (y % 2 ^ (8 * w))
      (Nat.mod_lt _ hDpos) (Nat.mod_lt _ hDpos)
    rw [hx_eq, hy_eq] at hcmp
    have hcmp2 := @digits_lt_iff (2 ^ (8 * w)) (y / 2 ^ (8 * w))
      (y % 2 ^ (8 * w)) (x / 2 ^ (8 * w)) (x % 2 ^ (8 * w))
      (Nat.mod_lt _ hDpos) (Nat.mod_lt _ hDpos)
    rw [hx_eq, hy_eq] at hcmp2
    split_ifs with h1 h2
    · simp only [true_iff]
      exact Or.inl (hcmp.mpr (Or.inl h1))
    · have hyx : y < x := hcmp2.mpr (Or.inl h2)
      simp only [false_iff]
      rintro (h | ⟨rfl, _⟩) <;> omega
    · have hq : x / 2 ^ (8 * w) = y / 2 ^ (8 * w) := by omega
      have hAB : 2 ^ (8 * w) * (x / 2 ^ (8 * w)) = 2 ^ (8 * w) * (y / 2 ^ (8 * w)) := by
        rw [hq]
      have h5 : x < y ↔ x % 2 ^ (8 * w) < y % 2 ^ (8 * w) := by omega
      have h6 : x = y ↔ x % 2 ^ (8 * w) = y % 2 ^ (8 * w) := by omega
      rw [iht]
      rw [h5, h6]

/-- The key built by `fdb_build_event_key` is the zero namespace byte followed
by the big-endian id and the big-endian fragment index. -/
theorem fdb_build_event_key_eq (key fragment : Nat) :
    fdb_build_event_key key fragment = 0 :: (beBytes 8 key ++ beBytes 4 fragment) := rfl

/-- Keys compare by event id first, then by fragment index. -/
theorem keyLt_key_iff (id1 f1 id2 f2 : Nat)
    (hid1 : id1 < 2 ^ 64) (hid2 : id2 < 2 ^ 64) (hf1 : f1 < 2 ^ 32) (hf2 : f2 < 2 ^ 32) :
    (keyLt (fdb_build_event_key id1 f1) (fdb_build_event_key id2 f2) = true) ↔
      id1 < id2 ∨ (id1 = id2 ∧ f1 < f2) := by
  rw [fdb_build_event_key_eq, fdb_build_event_key_eq]
  have h0 : keyLt (0 :: (beBytes 8 id1 ++ beBytes 4 f1)) (0 :: (beBytes 8 id2 ++ beBytes 4 f2)) =
      keyLt (beBytes 8 id1 ++ beBytes 4 f1) (beBytes 8 id2 ++ beBytes 4 f2) := by
    rw [keyLt_cons]
    simp
  rw [h0]
  have h64 : (2 : Nat) ^ (8 * 8) = 2 ^ 64 := by norm_num
  have h32 : (2 : Nat) ^ (8 * 4) = 2 ^ 32 := by norm_num
  rw [keyLt_beBytes_append_iff 8 id1 id2 _ _ (h64 ▸ hid1) (h64 ▸ hid2)]
  have hinner : (keyLt (beBytes 4 f1) (beBytes 4 f2) = true) ↔ f1 < f2 := by
    rw [← List.append_nil (beBytes 4 f1), ← List.append_nil (beBytes 4 f2),
      keyLt_beBytes_append_iff 4 f1 f2 [] [] (h32 ▸ hf1) (h32 ▸ hf2)]
    simp [keyLt]
  rw [hinner]

--==============================================================================
-- Claim C8: the key encoding and its order
--==============================================================================

/-- Claim C8: `fdb_build_event_key` produces the fixed 13-byte key `0x00 ++
big-endian(id, 8 bytes) ++ big-endian(fragment, 4 bytes)`, and the encoding
embeds the (id, fragment) lexicographic order into the byte-lexicographic
key order: `key(id1, f1) < key(id2, f2)` exactly when `id1 < id2`, or
`id1 = id2` and `f1 < f2`. -/
theorem c8_key_order_embedding (id1 f1 id2 f2 : Nat)
    (hid1 : id1 < 2 ^ 64) (hid2 : id2 < 2 ^ 64) (hf1 : f1 < 2 ^ 32) (hf2 : f2 < 2 ^ 32) :
    fdb_build_event_key id1 f1 = 0 :: (beBytes 8 id1 ++ beBytes 4 f1) ∧
    (fdb_build_event_key id1 f1).length = 13 ∧
    ((keyLt (fdb_build_event_key id1 f1) (fdb_build_event_key id2 f2) = true) ↔
      id1 < id2 ∨ (id1 = id2 ∧ f1 < f2)) := by
  refine ⟨fdb_build_event_key_eq id1 f1, ?_, keyLt_key_iff id1 f1 id2 f2 hid1 hid2 hf1 hf2⟩
  rw [fdb_build_event_key_eq]
  simp [beBytes_length]

theorem c8_key_order_embedding_witness :
    ((42 : Nat) < 2 ^ 64 ∧ (43 : Nat) < 2 ^ 64 ∧ (7 : Nat) < 2 ^ 32 ∧ (0 : Nat) < 2 ^ 32) ∧
    (fdb_build_event_key 42 7 = 0 :: (beBytes 8 42 ++ beBytes 4 7) ∧
    (fdb_build_event_key 42 7).length = 13 ∧
    ((keyLt (fdb_build_event_key 42 7) (fdb_build_event_key 43 0) = true) ↔
      42 < 43 ∨ (42 = 43 ∧ 7 < 0))) :=
  ⟨⟨by norm_num, by norm_num, by norm_num, by norm_num⟩,
    c8_key_order_embedding 42 7 43 0 (by norm_num) (by norm_num) (by norm_num) (by norm_num)⟩

--==============================================================================
-- Claim C9: clear correctness
--==============================================================================

/-- A range read over a range that was just cleared returns nothing. -/
theorem storeGetRange_storeClearRange (lo hi : Key) (s : Store) :
    storeGetRange lo hi (storeClearRange lo hi s) = [] := by
  rw [storeGetRange, storeClearRange, List.filter_filter, List.filter_eq_nil]
  intro kv _
  cases h1 : keyLt kv.1 lo <;> cases h2 : keyLt kv.1 hi <;> simp [h1, h2]

/-- Filtering does not change the result of a key lookup when every pair
carrying the looked-up key survives the filter. -/
theorem find?_filter_of_keeps (l : Store) (p : Key × Value → Bool) (k : Key)
    (h : ∀ kv : Key × Value, kv.1 = k → p kv = true) :
    ((l.filter p).find? fun kv => kv.1 == k) = l.find? fun kv => kv.1 == k := by
  induction l with
  | nil => simp
  | cons kv rest ih =>
    by_cases hk : kv.1 = k
    · rw [List.filter_cons, if_pos (h kv hk)]
      have hb : (kv.1 == k) = true := by simp [hk]
      simp [List.find?_cons, hb]
    · have hb : (kv.1 == k) = false := by simp [hk]
      by_cases hp : p kv = true
      · rw [List.filter_cons, if_pos hp]
        simp [List.find?_cons, hb, ih]
      · rw [List.filter_cons, if_neg hp]
        simp [List.find?_cons, hb, ih]

/-- Claim C9: after `fdb_clear_event e`, a range scan over `e`'s key span
`[key(e.id, 0), key(e.id, e.num_fragments))` returns zero keys, while the
value stored under any key belonging to a different event id is unchanged. -/
theorem c9_clear_event (store : Store) (e : FragmentedEvent)
    (hid : e.id < 2 ^ 64) (hnf : e.num_fragments < 2 ^ 32) :
    storeGetRange (fdb_build_event_key e.id 0) (fdb_build_event_key e.id e.num_fragments)
        (fdb_clear_event store e) = [] ∧
    ∀ id' f', id' < 2 ^ 64 → f' < 2 ^ 32 → id' ≠ e.id →
      storeGet (fdb_clear_event store e) (fdb_build_event_key id' f') =
        storeGet store (fdb_build_event_key id' f') := by
  constructor
  · exact storeGetRange_storeClearRange _ _ store
  · intro id' f' hid' hf' hne
    show (((storeClearRange _ _ store).find? _).map _) = ((store.find? _).map _)
    rw [storeClearRange, find?_filter_of_keeps]
    rintro ⟨k, v⟩ hk
    simp only at hk
    subst hk
    simp only [add_event_clear_transaction]
    rcases Nat.lt_or_gt_of_ne hne with hlt | hgt
    · have h1 : keyLt (fdb_build_event_key id' f') (fdb_build_event_key e.id 0) = true :=
        (keyLt_key_iff id' f' e.id 0 hid' hid hf' (by positivity)).mpr (Or.inl hlt)
      simp [h1]
    · have h2 : keyLt (fdb_build_event_key id' f') (fdb_build_event_key e.id e.num_fragments)
          = false := by
        rw [Bool.eq_false_iff]
        rw [Ne, keyLt_key_iff id' f' e.id e.num_fragments hid' hid hf' hnf]
        rintro (h | ⟨h, _⟩) <;> omega
      simp [h2]

theorem c9_clear_event_witness :
    ((5 : Nat) < 2 ^ 64 ∧ (2 : Nat) < 2 ^ 32) ∧
    (storeGetRange (fdb_build_event_key 5 0) (fdb_build_event_key 5 2)
        (fdb_clear_event
          [(fdb_build_event_key 4 0, [9]), (fdb_build_event_key 5 0, [1]),
            (fdb_build_event_key 5 1, [2]), (fdb_build_event_key 6 0, [3])]
          ⟨5, 2, [1], 1, 1, [[1], [2]]⟩) = [] ∧
    ∀ id' f', id' < 2 ^ 64 → f' < 2 ^ 32 → id' ≠ 5 →
      storeGet (fdb_clear_event
          [(fdb_build_event_key 4 0, [9]), (fdb_build_event_key 5 0, [1]),
            (fdb_build_event_key 5 1, [2]), (fdb_build_event_key 6 0, [3])]
          ⟨5, 2, [1], 1, 1, [[1], [2]]⟩) (fdb_build_event_key id' f') =
        storeGet
          [(fdb_build_event_key 4 0, [9]), (fdb_build_event_key 5 0, [1]),
            (fdb_build_event_key 5 1, [2]), (fdb_build_event_key 6 0, [3])]
          (fdb_build_event_key id' f')) :=
  ⟨⟨by norm_num, by norm_num⟩,
    c9_clear_event _ ⟨5, 2, [1], 1, 1, [[1], [2]]⟩ (by norm_num) (by norm_num)⟩

--==============================================================================
-- Batch writer lemmas
--==============================================================================

/-- The set operation that the batch writer issues for fragment `i` of an
event: fragment 0 carries the header and the first payload, every other
fragment is written verbatim. -/
def eventOp (e : FragmentedEvent) (i : Nat) : Op :=
  if i = 0 then
    (fdb_build_event_key e.id 0,
      e.header.take e.header_length ++ (e.fragments.headD []).take e.payload_length)
  else
    (fdb_build_event_key e.id i, (e.fragments.getD i []).take OPTIMAL_VALUE_SIZE)

/-- All set operations of one event, in fragment order. -/
def eventOps (e : FragmentedEvent) : List Op :=
  (List.range e.num_fragments).map (eventOp e)

theorem eventOp_key (e : FragmentedEvent) (i : Nat) :
    (eventOp e i).1 = fdb_build_event_key e.id i := by
  rw [eventOp]
  split
  · next h => rw [h]
  · rfl

theorem range'_append_one (s m n : Nat) :
    List.range' s m ++ List.range' (s + m) n = List.range' s (m + n) := by
  have h := List.range'_append s m n 1
  simp only [Nat.one_mul] at h
  rw [h, Nat.add_comm n m]

/-- `add_event_set_transactions` adds exactly the operations for fragments
`start_pos, ..., end_pos - 1` (where `end_pos = min (start_pos + limit)
num_fragments`), and returns their count.  Requires at least one fragment and
a positive limit, which rules out the degenerate path where the first
fragment is written but not counted. -/
theorem add_event_set_transactions_eq (e : FragmentedEvent) (start_pos limit : Nat)
    (hnf : 0 < e.num_fragments) (hlim : 0 < limit) :
    add_event_set_transactions e start_pos limit =
      ((List.range' start_pos (min (start_pos + limit) e.num_fragments - start_pos)).map
        (eventOp e),
       min (start_pos + limit) e.num_fragments - start_pos) := by
  rw [add_event_set_transactions]
  by_cases h0 : start_pos = 0
  · subst h0
    simp only [reduceIte, Nat.zero_add, Nat.sub_zero]
    have hk : min limit e.num_fragments = (min limit e.num_fragments - 1) + 1 := by omega
    rw [hk, List.range'_succ]
    simp only [List.map_cons, List.singleton_append, Nat.add_sub_cancel, Prod.mk.injEq]
    refine ⟨?_, by trivial⟩
    congr 1
    apply List.map_congr_left
    intro i hi
    have hne : i ≠ 0 := by
      rcases List.mem_range'_1.mp hi with ⟨hle, hlt⟩
      omega
    rw [eventOp, if_neg hne]
  · rw [if_neg h0, if_neg h0]
    simp only [List.nil_append, Prod.mk.injEq]
    refine ⟨?_, by trivial⟩
    apply List.map_congr_left
    intro i hi
    have hne : i ≠ 0 := by
      rcases List.mem_range'_1.mp hi with ⟨hle, hlt⟩
      omega
    rw [eventOp, if_neg hne]

theorem keyLt_irrefl (a : Key) : keyLt a a = false := by
  induction a with
  | nil => rfl
  | cons x xs ih => simp [keyLt_cons, ih]

theorem keyLt_asymm {a b : Key} (h : keyLt a b = true) : keyLt b a = false := by
  induction a generalizing b with
  | nil =>
    cases b with
    | nil => simp [keyLt] at h
    | cons y ys => rfl
  | cons x xs ih =>
    cases b with
    | nil => simp [keyLt] at h
    | cons y ys =>
      rw [keyLt_cons] at h
      rw [keyLt_cons]
      rcases Nat.lt_trichotomy x y with h1 | h1 | h1
      · rw [if_neg (by omega : ¬y < x), if_pos h1]
      · subst h1
        rw [if_neg (by omega : ¬x < x), if_neg (by omega : ¬x < x)] at h
        rw [if_neg (by omega : ¬x < x), if_neg (by omega : ¬x < x)]
        exact ih h
      · rw [if_neg (by omega : ¬x < y), if_pos h1] at h
        exact absurd h (by simp)

/-- Setting a key greater than every key in the store appends the pair. -/
theorem storeSet_append_of_gt (s : Store) (k : Key) (v : Value)
    (h : ∀ kv ∈ s, keyLt kv.1 k = true) :
    storeSet s k v = s ++ [(k, v)] := by
  induction s with
  | nil => rfl
  | cons kv rest ih =>
    have hlt : keyLt kv.1 k = true := h kv (List.mem_cons_self _ _)
    have h1 : keyLt k kv.1 = false := keyLt_asymm hlt
    have h2 : k ≠ kv.1 := by
      intro he
      rw [he, keyLt_irrefl] at hlt
      exact Bool.false_ne_true hlt
    rw [storeSet]
    rw [if_neg (by simp [h1]), if_neg h2, ih fun kv' h' => h kv' (List.mem_cons_of_mem _ h')]
    rfl

/-- Committing a strictly ascending batch of set operations onto a store whose
keys all precede the batch appends the batch. -/
theorem commitTx_eq_append (ops : List Op) (s : Store)
    (h1 : ops.Pairwise fun a b => keyLt a.1 b.1 = true)
    (h2 : ∀ kv ∈ s, ∀ op ∈ ops, keyLt kv.1 op.1 = true) :
    commitTx s ops = s ++ ops := by
  induction ops generalizing s with
  | nil => simp [commitTx]
  | cons op rest ih =>
    have hset : storeSet s op.1 op.2 = s ++ [op] := by
      rw [storeSet_append_of_gt s op.1 op.2 fun kv hkv => h2 kv hkv op (List.mem_cons_self _ _)]
    have h2' : ∀ kv ∈ s ++ [op], ∀ op' ∈ rest, keyLt kv.1 op'.1 = true := by
      intro kv hkv op' hop'
      rcases List.mem_append.mp hkv with hkv | hkv
      · exact h2 kv hkv op' (List.mem_cons_of_mem _ hop')
      · have heq : kv = op := by simpa using hkv
        subst heq
        exact (List.pairwise_cons.mp h1).1 op' hop'
    show commitTx (storeSet s op.1 op.2) rest = s ++ op :: rest
    rw [hset, ih (s ++ [op]) (List.Pairwise.of_cons h1) h2']
    simp

/-- Committing the concatenation of two batches is committing them in turn. -/
theorem commitTx_append (s : Store) (a b : List Op) :
    commitTx s (a ++ b) = commitTx (commitTx s a) b := by
  rw [commitTx, commitTx, commitTx, List.foldl_append]

/-- The `fdb_write_event` batching loop applies exactly the operations for the
remaining fragments, whatever positive batch size is used. -/
theorem writeEventLoop_spec (batch_size : Nat) (e : FragmentedEvent) (hbs : 0 < batch_size) :
    ∀ fuel i store, i ≤ e.num_fragments → e.num_fragments - i < fuel →
      writeEventLoop batch_size e fuel i store =
        some (commitTx store ((List.range' i (e.num_fragments - i)).map (eventOp e))) := by
  intro fuel
  induction fuel with
  | zero => omega
  | succ fuel ih =>
    intro i store hi hfuel
    rw [writeEventLoop]
    by_cases hlt : i < e.num_fragments
    · rw [if_pos hlt]
      have hnf : 0 < e.num_fragments := by omega
      have hnum : 0 < min (i + batch_size) e.num_fragments - i := by omega
      rw [add_event_set_transactions_eq e i batch_size hnf hbs]
      show writeEventLoop batch_size e fuel
          (i + (min (i + batch_size) e.num_fragments - i))
          (commitTx store
            ((List.range' i (min (i + batch_size) e.num_fragments - i)).map (eventOp e))) =
        some (commitTx store ((List.range' i (e.num_fragments - i)).map (eventOp e)))
      rw [ih _ _ (by omega) (by omega)]
      rw [← commitTx_append, ← List.map_append, range'_append_one]
      have harith : min (i + batch_size) e.num_fragments - i +
          (e.num_fragments - (i + (min (i + batch_size) e.num_fragments - i))) =
          e.num_fragments - i := by omega
      rw [harith]
    · rw [if_neg hlt]
      have hz : e.num_fragments - i = 0 := by omega
      rw [hz]
      simp [commitTx]

/-- `fdb_write_event` with a positive batch size writes exactly the event's
operations, in fragment order, onto the store. -/
theorem fdb_write_event_eq (store : Store) (e : FragmentedEvent) (batch_size : Nat)
    (hbs : 0 < batch_size) :
    fdb_write_event store e batch_size = some (commitTx store (eventOps e)) := by
  rw [fdb_write_event, writeEventLoop_spec batch_size e hbs _ 0 store (by omega) (by omega)]
  rw [eventOps, Nat.sub_zero, List.range'_eq_map_range]
  simp

--==============================================================================
-- Fragmentation facts for in-range event sizes
--==============================================================================

/-- The fragment count of an event of `s` bytes, for sizes where the
`uint32_t` arithmetic in `fragment_event` cannot wrap. -/
def specN (s : Nat) : Nat :=
  if s % OPTIMAL_VALUE_SIZE = 0 then s / OPTIMAL_VALUE_SIZE else s / OPTIMAL_VALUE_SIZE + 1

/-- The first-fragment payload length of an event of `s` bytes. -/
def specP (s : Nat) : Nat :=
  if s % OPTIMAL_VALUE_SIZE = 0 then OPTIMAL_VALUE_SIZE else s % OPTIMAL_VALUE_SIZE

theorem specN_bounds (s : Nat) (hpos : 0 < s) (hsize : s ≤ 128 * OPTIMAL_VALUE_SIZE) :
    1 ≤ specN s ∧ specN s ≤ 128 ∧ 0 < specP s ∧ specP s ≤ OPTIMAL_VALUE_SIZE ∧
    specP s ≤ s ∧ s = specP s + (specN s - 1) * OPTIMAL_VALUE_SIZE := by
  rw [specN, specP]
  simp only [OPTIMAL_VALUE_SIZE] at *
  by_cases hr : s % 10000 = 0
  · rw [if_pos hr, if_pos hr]
    refine ⟨?_, ?_, ?_, ?_, ?_, ?_⟩ <;> omega
  · rw [if_neg hr, if_neg hr]
    refine ⟨?_, ?_, ?_, ?_, ?_, ?_⟩ <;> omega

theorem fragment_event_eq_of_bounds (id : Nat) (data : List Nat)
    (hpos : 0 < data.length) (hsize : data.length ≤ 128 * OPTIMAL_VALUE_SIZE) :
    fragment_event ⟨id, data⟩ =
      { id := id
        num_fragments := specN data.length
        header := [specN data.length - 1]
        header_length := 1
        payload_length := specP data.length
        fragments := (List.range (specN data.length)).map fun i =>
          if i = 0 then data.take (specP data.length)
          else (data.drop (specP data.length + (i - 1) * OPTIMAL_VALUE_SIZE)).take
            OPTIMAL_VALUE_SIZE } := by
  obtain ⟨hn1, hn128, _, _, _, _⟩ := specN_bounds data.length hpos hsize
  have h32 : (2 : Nat) ^ 32 = 4294967296 := by norm_num
  have hnum : (if data.length % OPTIMAL_VALUE_SIZE = 0 then
      data.length / OPTIMAL_VALUE_SIZE % 2 ^ 32
      else (data.length / OPTIMAL_VALUE_SIZE % 2 ^ 32 + 1) % 2 ^ 32) = specN data.length := by
    rw [specN, h32]
    simp only [OPTIMAL_VALUE_SIZE] at hsize ⊢
    by_cases hr : data.length % 10000 = 0
    · rw [if_pos hr, if_pos hr]
      omega
    · rw [if_neg hr, if_neg hr]
      omega
  have hhdr : (specN data.length + 2 ^ 32 - 1) % 2 ^ 32 = specN data.length - 1 := by
    rw [h32]
    omega
  have hbh : build_header (specN data.length - 1) = ([specN data.length - 1], 1) := by
    rw [build_header, if_pos (by omega : specN data.length - 1 < 128),
      Nat.mod_eq_of_lt (by omega : specN data.length - 1 < 256)]
  show FragmentedEvent.mk _ _ _ _ _ _ = FragmentedEvent.mk _ _ _ _ _ _
  rw [show ((⟨id, data⟩ : Event)).data = data from rfl, show ((⟨id, data⟩ : Event)).id = id from rfl]
  rw [hnum, hhdr, hbh]
  simp only [FragmentedEvent.mk.injEq]
  refine ⟨by trivial, by trivial, by trivial, by trivial, ?_, ?_⟩
  · rw [specP]
  · apply List.map_congr_left
    intro i _
    rw [specP]

--==============================================================================
-- Range reader lemmas
--==============================================================================

theorem getD_map_range {α : Type} (n i : Nat) (f : Nat → α) (d : α) (h : i < n) :
    ((List.range n).map f).getD i d = f i := by
  rw [List.getD_eq_getElem?_getD, List.getElem?_map, List.getElem?_range h]
  rfl

/-- The operations of one event have strictly ascending keys. -/
theorem eventOps_pairwise (e : FragmentedEvent) (hid : e.id < 2 ^ 64)
    (hnf : e.num_fragments ≤ 2 ^ 32) :
    (eventOps e).Pairwise fun a b => keyLt a.1 b.1 = true := by
  rw [eventOps, List.pairwise_map]
  refine (List.pairwise_lt_range _).imp_of_mem ?_
  intro a b ha hb hab
  rw [eventOp_key, eventOp_key]
  have ha' : a < e.num_fragments := List.mem_range.mp ha
  have hb' : b < e.num_fragments := List.mem_range.mp hb
  exact (keyLt_key_iff e.id a e.id b hid hid (by omega) (by omega)).mpr (Or.inr ⟨rfl, hab⟩)

/-- A range read over `[key(id, 0), key(id+1, 0))` of a store holding exactly
the operations of event `id` returns all of them. -/
theorem getRange_eventOps (e : FragmentedEvent) (hid : e.id + 1 < 2 ^ 64)
    (hnf : e.num_fragments ≤ 2 ^ 32) :
    storeGetRange (fdb_build_event_key e.id 0) (fdb_build_event_key (e.id + 1) 0)
      (eventOps e) = eventOps e := by
  rw [storeGetRange, List.filter_eq_self]
  intro op hop
  rcases List.mem_map.mp (by rw [eventOps] at hop; exact hop) with ⟨i, hi, rfl⟩
  have hilt : i < e.num_fragments := List.mem_range.mp hi
  rw [eventOp_key]
  have h1 : keyLt (fdb_build_event_key e.id i) (fdb_build_event_key e.id 0) = false := by
    rw [Bool.eq_false_iff, Ne,
      keyLt_key_iff e.id i e.id 0 (by omega) (by omega) (by omega) (by positivity)]
    rintro (h | ⟨_, h⟩) <;> omega
  have h2 : keyLt (fdb_build_event_key e.id i) (fdb_build_event_key (e.id + 1) 0) = true :=
    (keyLt_key_iff e.id i (e.id + 1) 0 (by omega) hid (by omega) (by positivity)).mpr
      (Or.inl (by omega))
  simp [h1, h2]

/-- Concatenating `m` consecutive `c`-byte chunks of a buffer starting at
`off` yields the corresponding contiguous slice. -/
theorem flatten_chunks (l : List Nat) (c : Nat) :
    ∀ m off, ((List.range m).map fun j => (l.drop (off + j * c)).take c).flatten =
      (l.drop off).take (m * c) := by
  intro m
  induction m with
  | zero => simp
  | succ m ih =>
    intro off
    rw [List.range_succ_eq_map]
    simp only [List.map_cons, List.map_map, List.flatten_cons, Nat.zero_mul, Nat.add_zero]
    have hcomp : ((fun j => (l.drop (off + j * c)).take c) ∘ fun j => j + 1) =
        fun j => (l.drop ((off + c) + j * c)).take c := by
      funext j
      simp only [Function.comp_apply]
      congr 2
      ring
    rw [hcomp, ih (off + c)]
    rw [show (m + 1) * c = c + m * c by ring, List.take_add, List.drop_drop]

/-- Evaluating `fdb_read_event` when the page returned by the range read is
known. -/
theorem fdb_read_event_of_page (store : Store) (id : Nat) (kv0 : Op) (rest : List Op)
    (hpage : storeGetRange (fdb_build_event_key id 0) (fdb_build_event_key (id + 1) 0) store =
      kv0 :: rest) :
    fdb_read_event store id =
      (if (rest.map (fun kv => kv.2)).all (fun v => v.length == OPTIMAL_VALUE_SIZE) then
        if ((read_header kv0.2 0).1 + 1) % 2 ^ 32 = (kv0 :: rest).length then
          some (((read_header kv0.2 0).1 * OPTIMAL_VALUE_SIZE % 2 ^ 32 +
              (kv0.2.length - (read_header kv0.2 0).2)) % 2 ^ 32,
            (kv0.2.drop (read_header kv0.2 0).2).take (kv0.2.length - (read_header kv0.2 0).2) ++
              (rest.map (fun kv => kv.2)).flatten)
        else none
      else none) := by
  rw [fdb_read_event, hpage]

/-- Reading back a store that holds exactly the operations of one fragmented
event (with a one-byte header) reconstructs the original buffer. -/
theorem read_eventOps (id n p : Nat) (data : List Nat)
    (hid : id + 1 < 2 ^ 64) (hn1 : 1 ≤ n) (hn128 : n ≤ 128)
    (hp0 : 0 < p) (hpOVS : p ≤ OPTIMAL_VALUE_SIZE) (hple : p ≤ data.length)
    (hlen : data.length = p + (n - 1) * OPTIMAL_VALUE_SIZE) :
    fdb_read_event (eventOps
      { id := id, num_fragments := n, header := [n - 1], header_length := 1,
        payload_length := p,
        fragments := (List.range n).map fun i =>
          if i = 0 then data.take p
          else (data.drop (p + (i - 1) * OPTIMAL_VALUE_SIZE)).take OPTIMAL_VALUE_SIZE }) id =
      some (data.length, data) := by
  set F : FragmentedEvent :=
    { id := id, num_fragments := n, header := [n - 1], header_length := 1,
      payload_length := p,
      fragments := (List.range n).map fun i =>
        if i = 0 then data.take p
        else (data.drop (p + (i - 1) * OPTIMAL_VALUE_SIZE)).take OPTIMAL_VALUE_SIZE }
    with hF
  obtain ⟨m, hm⟩ : ∃ m, n = m + 1 := ⟨n - 1, by omega⟩
  have hm' : n - 1 = m := by omega
  have hv0 : eventOp F 0 = (fdb_build_event_key id 0, (n - 1) :: data.take p) := by
    rw [eventOp, if_pos rfl, hF]
    have hhead : (((List.range n).map fun i =>
        if i = 0 then data.take p
        else (data.drop (p + (i - 1) * OPTIMAL_VALUE_SIZE)).take
          OPTIMAL_VALUE_SIZE).headD []) = data.take p := by
      rw [hm, List.range_succ_eq_map]
      simp
    simp only [hhead]
    rw [show [n - 1].take 1 = [n - 1] from rfl, List.take_take, Nat.min_self]
    rfl
  have hops : eventOps F = eventOp F 0 :: (List.range' 1 m).map (eventOp F) := by
    rw [eventOps]
    show (List.range F.num_fragments).map (eventOp F) = _
    rw [show F.num_fragments = n from rfl, hm, List.range_eq_range', List.range'_succ]
    simp
  have hpage : storeGetRange (fdb_build_event_key id 0) (fdb_build_event_key (id + 1) 0)
      (eventOps F) = eventOp F 0 :: (List.range' 1 m).map (eventOp F) := by
    rw [← hops]
    exact getRange_eventOps F (by rw [hF]; exact hid)
      (by show n ≤ 2 ^ 32; norm_num; omega)
  have hslice : ∀ i, 1 ≤ i → i ≤ m →
      (eventOp F i).2 = (data.drop (p + (i - 1) * OPTIMAL_VALUE_SIZE)).take
        OPTIMAL_VALUE_SIZE := by
    intro i hi1 him
    rw [eventOp, if_neg (by omega : i ≠ 0)]
    show (F.fragments.getD i []).take OPTIMAL_VALUE_SIZE = _
    rw [show F.fragments = (List.range n).map fun i =>
        if i = 0 then data.take p
        else (data.drop (p + (i - 1) * OPTIMAL_VALUE_SIZE)).take OPTIMAL_VALUE_SIZE from rfl]
    rw [getD_map_range n i _ [] (by omega), if_neg (by omega : i ≠ 0),
      List.take_take, Nat.min_self]
  have hslice_len : ∀ i, 1 ≤ i → i ≤ m →
      ((data.drop (p + (i - 1) * OPTIMAL_VALUE_SIZE)).take OPTIMAL_VALUE_SIZE).length =
        OPTIMAL_VALUE_SIZE := by
    intro i hi1 him
    rw [List.length_take, List.length_drop]
    have : p + (i - 1) * OPTIMAL_VALUE_SIZE + OPTIMAL_VALUE_SIZE ≤ data.length := by
      rw [hlen, hm']
      have h1 : (i - 1) * OPTIMAL_VALUE_SIZE + OPTIMAL_VALUE_SIZE =
          i * OPTIMAL_VALUE_SIZE := by
        rw [Nat.sub_mul, Nat.one_mul]
        have h2 : OPTIMAL_VALUE_SIZE ≤ i * OPTIMAL_VALUE_SIZE :=
          Nat.le_mul_of_pos_left _ (by omega)
        omega
      have h3 : i * OPTIMAL_VALUE_SIZE ≤ m * OPTIMAL_VALUE_SIZE :=
        Nat.mul_le_mul_right _ him
      omega
    omega
  have hrh : read_header ((n - 1) :: data.take p) 0 = (n - 1, 1) := by
    have hz : (n - 1) &&& EXTENDED_HEADER = 0 := by
      rw [show EXTENDED_HEADER = 128 from rfl]
      exact land_128_of_lt (by omega)
    rw [read_header]
    simp only [List.headD_cons]
    rw [if_neg (by simp [hz])]
  have hrestvals : ((List.range' 1 m).map (eventOp F)).map (fun kv => kv.2) =
      (List.range' 1 m).map fun i =>
        (data.drop (p + (i - 1) * OPTIMAL_VALUE_SIZE)).take OPTIMAL_VALUE_SIZE := by
    rw [List.map_map]
    apply List.map_congr_left
    intro i hi
    rcases List.mem_range'_1.mp hi with ⟨h1, h2⟩
    exact hslice i h1 (by omega)
  have hall : ((List.range' 1 m).map fun i =>
      (data.drop (p + (i - 1) * OPTIMAL_VALUE_SIZE)).take OPTIMAL_VALUE_SIZE).all
        (fun v => v.length == OPTIMAL_VALUE_SIZE) = true := by
    rw [List.all_eq_true]
    intro v hv
    rcases List.mem_map.mp hv with ⟨i, hi, rfl⟩
    rcases List.mem_range'_1.mp hi with ⟨h1, h2⟩
    simp [hslice_len i h1 (by omega)]
  have hplen : (eventOp F 0 :: (List.range' 1 m).map (eventOp F)).length = n := by
    simp [hm]
  have hlen_take : ((n - 1) :: data.take p).length - 1 = p := by
    simp [List.length_take, Nat.min_eq_left hple]
  have hdlen : ((n - 1) * OPTIMAL_VALUE_SIZE % 2 ^ 32 + p) % 2 ^ 32 = data.length := by
    rw [hlen]
    have h32 : (2 : Nat) ^ 32 = 4294967296 := by norm_num
    simp only [OPTIMAL_VALUE_SIZE, h32] at *
    omega
  have hfirst : (((n - 1) :: data.take p).drop 1).take p = data.take p := by
    simp [List.take_take]
  have hcount : (n - 1 + 1) % 2 ^ 32 = n := by
    have h32 : (2 : Nat) ^ 32 = 4294967296 := by norm_num
    rw [h32]
    omega
  have hflat : ((List.range' 1 m).map fun i =>
      (data.drop (p + (i - 1) * OPTIMAL_VALUE_SIZE)).take OPTIMAL_VALUE_SIZE).flatten =
      (data.drop p).take (m * OPTIMAL_VALUE_SIZE) := by
    rw [List.range'_eq_map_range, List.map_map]
    have hfn : ((fun i => (data.drop (p + (i - 1) * OPTIMAL_VALUE_SIZE)).take
        OPTIMAL_VALUE_SIZE) ∘ (1 + ·)) =
        fun j => (data.drop (p + j * OPTIMAL_VALUE_SIZE)).take OPTIMAL_VALUE_SIZE := by
      funext j
      simp only [Function.comp_apply]
      rw [show 1 + j - 1 = j by omega]
    rw [hfn, flatten_chunks]
  have hfinal : data.take p ++ (data.drop p).take (m * OPTIMAL_VALUE_SIZE) = data := by
    rw [← List.take_add, show p + m * OPTIMAL_VALUE_SIZE = data.length by rw [hlen, hm'],
      List.take_length]
  rw [fdb_read_event_of_page _ _ _ _ hpage]
  rw [hv0]
  simp only [hrh, hrestvals, hall, if_true, hlen_take, hdlen, hfirst, hcount, hplen, hflat,
    hfinal, if_pos rfl]
  have hplen2 : ((fdb_build_event_key id 0, (n - 1) :: data.take p) ::
      (List.range' 1 m).map (eventOp F)).length = n := by
    simp [hm]
  rw [hplen2, if_pos rfl]

--==============================================================================
-- Claim C1: write/read round trip
--==============================================================================

/-- Claim C1: fragmenting an event, writing all its fragments with
`fdb_write_event`, and reading it back by id from a single range-read page
reconstructs a byte-for-byte identical buffer of the original `data_length`,
for the claimed event sizes 1, `OPTIMAL_VALUE_SIZE`, `OPTIMAL_VALUE_SIZE + 1`,
`3 * OPTIMAL_VALUE_SIZE` and `4 * OPTIMAL_VALUE_SIZE` (the id bound keeps the
exclusive range-end key `key(id+1, 0)` from wrapping, which is also what the
claim's "can be read back" premise requires). -/
theorem c1_write_read_round_trip (id : Nat) (data : List Nat) (batch_size : Nat)
    (hid : id + 1 < 2 ^ 64) (hbs : 0 < batch_size)
    (hs : data.length = 1 ∨ data.length = OPTIMAL_VALUE_SIZE ∨
      data.length = OPTIMAL_VALUE_SIZE + 1 ∨ data.length = 3 * OPTIMAL_VALUE_SIZE ∨
      data.length = 4 * OPTIMAL_VALUE_SIZE) :
    ∃ st, fdb_write_event [] (fragment_event ⟨id, data⟩) batch_size = some st ∧
      fdb_read_event st id = some (data.length, data) := by
  have hpos : 0 < data.length := by
    rcases hs with h | h | h | h | h <;> rw [h] <;> norm_num [OPTIMAL_VALUE_SIZE]
  have hsize : data.length ≤ 128 * OPTIMAL_VALUE_SIZE := by
    rcases hs with h | h | h | h | h <;> rw [h] <;> norm_num [OPTIMAL_VALUE_SIZE]
  obtain ⟨hn1, hn128, hp0, hpOVS, hple, hlen⟩ := specN_bounds data.length hpos hsize
  have hfe := fragment_event_eq_of_bounds id data hpos hsize
  rw [hfe]
  refine ⟨_, fdb_write_event_eq [] _ batch_size hbs, ?_⟩
  have hcommit : commitTx [] (eventOps
      { id := id, num_fragments := specN data.length, header := [specN data.length - 1],
        header_length := 1, payload_length := specP data.length,
        fragments := (List.range (specN data.length)).map fun i =>
          if i = 0 then data.take (specP data.length)
          else (data.drop (specP data.length + (i - 1) * OPTIMAL_VALUE_SIZE)).take
            OPTIMAL_VALUE_SIZE }) = eventOps
      { id := id, num_fragments := specN data.length, header := [specN data.length - 1],
        header_length := 1, payload_length := specP data.length,
        fragments := (List.range (specN data.length)).map fun i =>
          if i = 0 then data.take (specP data.length)
          else (data.drop (specP data.length + (i - 1) * OPTIMAL_VALUE_SIZE)).take
            OPTIMAL_VALUE_SIZE } := by
    rw [commitTx_eq_append _ []
      (eventOps_pairwise _ (by show id < 2 ^ 64; omega)
        (by show specN data.length ≤ 2 ^ 32; norm_num; omega))
      (fun kv hkv => absurd hkv (List.not_mem_nil kv))]
    simp
  rw [hcommit]
  exact read_eventOps id (specN data.length) (specP data.length) data hid hn1 hn128 hp0 hpOVS
    hple hlen

theorem c1_write_read_round_trip_witness :
    ((0 : Nat) + 1 < 2 ^ 64 ∧ (0 : Nat) < 1 ∧
      (([7] : List Nat).length = 1 ∨ ([7] : List Nat).length = OPTIMAL_VALUE_SIZE ∨
        ([7] : List Nat).length = OPTIMAL_VALUE_SIZE + 1 ∨
        ([7] : List Nat).length = 3 * OPTIMAL_VALUE_SIZE ∨
        ([7] : List Nat).length = 4 * OPTIMAL_VALUE_SIZE)) ∧
    (∃ st, fdb_write_event [] (fragment_event ⟨0, [7]⟩) 1 = some st ∧
      fdb_read_event st 0 = some (([7] : List Nat).length, [7])) :=
  ⟨⟨by norm_num, by norm_num, Or.inl rfl⟩,
    c1_write_read_round_trip 0 [7] 1 (by norm_num) (by norm_num) (Or.inl rfl)⟩

--==============================================================================
-- Array writer: step characterization
--==============================================================================

theorem writeArrayLoop_cons (bs fuel : Nat) (e : FragmentedEvent) (rest : List FragmentedEvent)
    (fp bf : Nat) (tx : List Op) (comm : List (List Op)) :
    writeArrayLoop bs (fuel + 1) ⟨e :: rest, fp, bf, tx, comm⟩ =
      writeArrayLoop bs fuel (writeArrayStep bs ⟨e :: rest, fp, bf, tx, comm⟩) := rfl

theorem writeArrayLoop_nil (bs fuel : Nat) (fp bf : Nat) (tx : List Op)
    (comm : List (List Op)) :
    writeArrayLoop bs (fuel + 1) ⟨[], fp, bf, tx, comm⟩ = some ⟨[], fp, bf, tx, comm⟩ := rfl

/-- One iteration of the array-writer loop, with the two `batch_filled`
branches of the C code merged (for `batch_filled = 0` the limit `batch_size`
and the assignment `batch_filled = num` agree with `batch_size - 0` and
`0 + num`). -/
theorem writeArrayStep_cons (bs : Nat) (e : FragmentedEvent) (rest : List FragmentedEvent)
    (fp bf : Nat) (tx : List Op) (comm : List (List Op))
    (hnf : 0 < e.num_fragments) (hbf : bf < bs) :
    writeArrayStep bs ⟨e :: rest, fp, bf, tx, comm⟩ =
      (let num := min (fp + (bs - bf)) e.num_fragments - fp
       let ops := (List.range' fp num).map (eventOp e)
       let pf : List FragmentedEvent × Nat :=
         if fp + num = e.num_fragments then (rest, 0) else (e :: rest, fp + num)
       if bf + num = bs then
         ⟨pf.1, pf.2, 0, [], comm ++ [tx ++ ops]⟩
       else
         ⟨pf.1, pf.2, bf + num, tx ++ ops, comm⟩) := by
  rw [writeArrayStep]
  simp only
  by_cases h0 : bf = 0
  · subst h0
    rw [if_pos rfl, if_pos rfl,
      add_event_set_transactions_eq e fp bs hnf (by omega)]
    simp only [Nat.sub_zero, Nat.zero_add]
  · rw [if_neg h0, if_neg h0,
      add_event_set_transactions_eq e fp (bs - bf) hnf (by omega)]

/-- When the current event's remaining fragments are fewer than the batch's
remaining capacity, the writer adds all of them and moves to the next event
at offset 0, without committing. -/
theorem writeArrayStep_move (bs : Nat) (e : FragmentedEvent) (rest : List FragmentedEvent)
    (fp bf : Nat) (tx : List Op) (comm : List (List Op))
    (hnf : 0 < e.num_fragments) (hfp : fp < e.num_fragments) (hbf : bf < bs)
    (hlt : e.num_fragments - fp < bs - bf) :
    writeArrayStep bs ⟨e :: rest, fp, bf, tx, comm⟩ =
      ⟨rest, 0, bf + (e.num_fragments - fp),
        tx ++ (List.range' fp (e.num_fragments - fp)).map (eventOp e), comm⟩ := by
  rw [writeArrayStep_cons bs e rest fp bf tx comm hnf hbf]
  have hnum : min (fp + (bs - bf)) e.num_fragments - fp = e.num_fragments - fp := by omega
  simp only [hnum]
  rw [if_pos (by omega : fp + (e.num_fragments - fp) = e.num_fragments),
    if_neg (by omega : ¬bf + (e.num_fragments - fp) = bs)]

/-- When the remaining fragments exceed the remaining capacity, the writer
adds exactly the capacity, stays on the same event, and commits the filled
batch. -/
theorem writeArrayStep_stay (bs : Nat) (e : FragmentedEvent) (rest : List FragmentedEvent)
    (fp bf : Nat) (tx : List Op) (comm : List (List Op))
    (hnf : 0 < e.num_fragments) (hfp : fp < e.num_fragments) (hbf : bf < bs)
    (hgt : bs - bf < e.num_fragments - fp) :
    writeArrayStep bs ⟨e :: rest, fp, bf, tx, comm⟩ =
      ⟨e :: rest, fp + (bs - bf), 0, [],
        comm ++ [tx ++ (List.range' fp (bs - bf)).map (eventOp e)]⟩ := by
  rw [writeArrayStep_cons bs e rest fp bf tx comm hnf hbf]
  have hnum : min (fp + (bs - bf)) e.num_fragments - fp = bs - bf := by omega
  simp only [hnum]
  rw [if_neg (by omega : ¬fp + (bs - bf) = e.num_fragments),
    if_pos (by omega : bf + (bs - bf) = bs)]

/-- When the remaining fragments equal the remaining capacity, the writer
adds all of them, commits the filled batch, and also moves on to the next
event at offset 0 in the same iteration. -/
theorem writeArrayStep_exact (bs : Nat) (e : FragmentedEvent) (rest : List FragmentedEvent)
    (fp bf : Nat) (tx : List Op) (comm : List (List Op))
    (hnf : 0 < e.num_fragments) (hfp : fp < e.num_fragments) (hbf : bf < bs)
    (heq : e.num_fragments - fp = bs - bf) :
    writeArrayStep bs ⟨e :: rest, fp, bf, tx, comm⟩ =
      ⟨rest, 0, 0, [],
        comm ++ [tx ++ (List.range' fp (bs - bf)).map (eventOp e)]⟩ := by
  rw [writeArrayStep_cons bs e rest fp bf tx comm hnf hbf]
  have hnum : min (fp + (bs - bf)) e.num_fragments - fp = bs - bf := by omega
  simp only [hnum]
  rw [if_pos (by omega : fp + (bs - bf) = e.num_fragments),
    if_pos (by omega : bf + (bs - bf) = bs)]

/-- The operations still to be written: the rest of the current event from
`frag_pos` on, then all later events. -/
def pendingOps : List FragmentedEvent → Nat → List Op
  | [], _ => []
  | e :: rest, fp =>
    (List.range' fp (e.num_fragments - fp)).map (eventOp e) ++ rest.flatMap eventOps

/-- Full functional correctness of the `fdb_write_event_array` loop: it
terminates, in-loop commits carry exactly `batch_size` operations, and the
committed transactions followed by the open one carry exactly the pending
operations, in order. -/
theorem writeArrayLoop_spec (bs : Nat) (hbs : 0 < bs) :
    ∀ fuel (pending : List FragmentedEvent) (fp bf : Nat) (tx : List Op)
      (comm : List (List Op)),
      (∀ e ∈ pending, 0 < e.num_fragments) →
      (∀ e rest, pending = e :: rest → fp < e.num_fragments) →
      bf < bs → tx.length = bf →
      (pendingOps pending fp).length + pending.length < fuel →
      ∃ s' newTxs,
        writeArrayLoop bs fuel ⟨pending, fp, bf, tx, comm⟩ = some s' ∧
        s'.pending = [] ∧
        s'.committed = comm ++ newTxs ∧
        (∀ t ∈ newTxs, t.length = bs) ∧
        s'.tx.length < bs ∧
        s'.committed.flatten ++ s'.tx = comm.flatten ++ tx ++ pendingOps pending fp := by
  intro fuel
  induction fuel with
  | zero =>
    intro pending fp bf tx comm _ _ _ _ hfuel
    omega
  | succ fuel ih =>
    intro pending fp bf tx comm hwf hhead hbf htx hfuel
    match pending with
    | [] =>
      refine ⟨⟨[], fp, bf, tx, comm⟩, [], writeArrayLoop_nil bs fuel fp bf tx comm, rfl,
        by simp, by simp, by simpa [htx] using hbf, ?_⟩
      simp [pendingOps]
    | e :: rest =>
      have hnf : 0 < e.num_fragments := hwf e (List.mem_cons_self _ _)
      have hfp : fp < e.num_fragments := hhead e rest rfl
      have hwf' : ∀ e' ∈ rest, 0 < e'.num_fragments :=
        fun e' h => hwf e' (List.mem_cons_of_mem _ h)
      have hops_len : (pendingOps (e :: rest) fp).length =
          (e.num_fragments - fp) + (rest.flatMap eventOps).length := by
        simp [pendingOps]
      simp only [List.length_cons] at hfuel
      rw [writeArrayLoop_cons]
      rcases Nat.lt_trichotomy (e.num_fragments - fp) (bs - bf) with hcmp | hcmp | hcmp
      · -- fewer remaining than capacity: take all, move to next event, no commit
        rw [writeArrayStep_move bs e rest fp bf tx comm hnf hfp hbf hcmp]
        have hnext := ih rest 0 (bf + (e.num_fragments - fp))
          (tx ++ (List.range' fp (e.num_fragments - fp)).map (eventOp e)) comm hwf'
          (fun e' rest' h => by subst h; exact hwf' e' (List.mem_cons_self _ _))
          (by omega) (by simp [htx]) ?_
        · obtain ⟨s', newTxs, hloop, hpend, hcommit, hlen, htxlen, hflat⟩ := hnext
          refine ⟨s', newTxs, hloop, hpend, hcommit, hlen, htxlen, ?_⟩
          rw [hflat]
          have hrest0 : pendingOps rest 0 = rest.flatMap eventOps := by
            match rest with
            | [] => rfl
            | e' :: rest' =>
              rw [pendingOps]
              simp [eventOps, List.range_eq_range']
          rw [hrest0, pendingOps]
          simp
        · have hrest0 : (pendingOps rest 0).length = (rest.flatMap eventOps).length := by
            match rest with
            | [] => rfl
            | e' :: rest' =>
              rw [pendingOps]
              simp [eventOps, List.range_eq_range']
          omega
      · -- remaining equals capacity: take all, commit, and move to next event
        rw [writeArrayStep_exact bs e rest fp bf tx comm hnf hfp hbf hcmp]
        have hnext := ih rest 0 0 [] (comm ++ [tx ++ (List.range' fp (bs - bf)).map (eventOp e)])
          hwf' (fun e' rest' h => by subst h; exact hwf' e' (List.mem_cons_self _ _))
          hbs rfl ?_
        · obtain ⟨s', newTxs, hloop, hpend, hcommit, hlen, htxlen, hflat⟩ := hnext
          refine ⟨s', (tx ++ (List.range' fp (bs - bf)).map (eventOp e)) :: newTxs, hloop,
            hpend, by simp [hcommit], ?_, htxlen, ?_⟩
          · intro t ht
            rcases List.mem_cons.mp ht with rfl | ht
            · simp only [List.length_append, List.length_map, List.length_range']
              rw [htx]
              omega
            · exact hlen t ht
          · rw [hflat]
            have hrest0 : pendingOps rest 0 = rest.flatMap eventOps := by
              match rest with
              | [] => rfl
              | e' :: rest' =>
                rw [pendingOps]
                simp [eventOps, List.range_eq_range']
            rw [hrest0, pendingOps]
            have harith : e.num_fragments - fp =
                (bs - bf) + (e.num_fragments - (fp + (bs - bf))) := by omega
            have hsplit : (List.range' fp (e.num_fragments - fp)).map (eventOp e) =
                (List.range' fp (bs - bf)).map (eventOp e) ++
                  (List.range' (fp + (bs - bf)) (e.num_fragments - (fp + (bs - bf)))).map
                    (eventOp e) := by
              rw [harith, ← range'_append_one, List.map_append]
            have hempty : e.num_fragments - (fp + (bs - bf)) = 0 := by omega
            rw [hsplit, hempty]
            simp
        · have hrest0 : (pendingOps rest 0).length = (rest.flatMap eventOps).length := by
            match rest with
            | [] => rfl
            | e' :: rest' =>
              rw [pendingOps]
              simp [eventOps, List.range_eq_range']
          omega
      · -- more remaining than capacity: fill the batch, commit, stay on the event
        rw [writeArrayStep_stay bs e rest fp bf tx comm hnf hfp hbf hcmp]
        have hnext := ih (e :: rest) (fp + (bs - bf)) 0 []
          (comm ++ [tx ++ (List.range' fp (bs - bf)).map (eventOp e)]) hwf
          (fun e' rest' h => by
            rw [List.cons.injEq] at h
            rw [← h.1]
            omega)
          hbs rfl ?_
        · obtain ⟨s', newTxs, hloop, hpend, hcommit, hlen, htxlen, hflat⟩ := hnext
          refine ⟨s', (tx ++ (List.range' fp (bs - bf)).map (eventOp e)) :: newTxs, hloop,
            hpend, by simp [hcommit], ?_, htxlen, ?_⟩
          · intro t ht
            rcases List.mem_cons.mp ht with rfl | ht
            · simp only [List.length_append, List.length_map, List.length_range']
              rw [htx]
              omega
            · exact hlen t ht
          · rw [hflat]
            rw [pendingOps, pendingOps]
            have harith : e.num_fragments - fp =
                (bs - bf) + (e.num_fragments - (fp + (bs - bf))) := by omega
            have hsplit : (List.range' fp (e.num_fragments - fp)).map (eventOp e) =
                (List.range' fp (bs - bf)).map (eventOp e) ++
                  (List.range' (fp + (bs - bf)) (e.num_fragments - (fp + (bs - bf)))).map
                    (eventOp e) := by
              rw [harith, ← range'_append_one, List.map_append]
            rw [hsplit]
            simp
        · rw [hops_len] at hfuel
          have hlen2 : (pendingOps (e :: rest) (fp + (bs - bf))).length =
              (e.num_fragments - (fp + (bs - bf))) + (rest.flatMap eventOps).length := by
            simp [pendingOps]
          rw [hlen2]
          simp only [List.length_cons]
          omega

theorem pendingOps_zero (events : List FragmentedEvent) :
    pendingOps events 0 = events.flatMap eventOps := by
  match events with
  | [] => rfl
  | e :: rest =>
    rw [pendingOps]
    simp [eventOps, List.range_eq_range']

theorem length_flatMap_eventOps (events : List FragmentedEvent) :
    (events.flatMap eventOps).length = totalFragments events := by
  induction events with
  | nil => rfl
  | cons e rest ih =>
    rw [List.flatMap_cons, List.length_append, ih]
    simp [eventOps, totalFragments]

--==============================================================================
-- Claim C5: the batching state machine
--==============================================================================

/-- Claim C5 as stated is false in the equal case of its transition rule: with
`batch_size = 2` and a current event of 2 remaining fragments (remaining
capacity also 2), the claim says the writer "adds exactly the remaining
capacity and stays on the same event", but the code moves on to the next
event in the same iteration (`frag_pos == num_fragments` triggers the event
advance before the commit check). -/
theorem c5_counterexample :
    (writeArrayStep 2
        ⟨[⟨1, 2, [1], 1, 1, [[3], [4]]⟩, ⟨2, 1, [0], 1, 1, [[5]]⟩], 0, 0, [], []⟩).pending ≠
      [⟨1, 2, [1], 1, 1, [[3], [4]]⟩, ⟨2, 1, [0], 1, 1, [[5]]⟩] := by
  decide

/-- Claim C5, amended.  For every array of fragmented events (each with at
least one fragment, as `fragment_event` is specified to produce) and every
positive batch size: `fdb_write_event_array` terminates, every committed
transaction carries at most `batch_size` set operations, a final (possibly
partial, possibly empty) batch is always flushed, and the committed
transactions in order carry exactly the operations of every fragment of every
event, each exactly once.  The transition rule, corrected: when the current
event's remaining fragments are fewer than the remaining capacity the writer
adds all of them and moves to the next event at offset 0; when they exceed
the capacity it adds exactly the capacity, commits, and stays on the same
event; when they are exactly equal it adds them, commits, and also moves to
the next event at offset 0 (rather than staying, as the claim said). -/
theorem c5_batching_invariants (events : List FragmentedEvent) (bs : Nat)
    (e : FragmentedEvent) (rest : List FragmentedEvent) (fp bf : Nat) (tx : List Op)
    (comm : List (List Op)) (hbs : 0 < bs)
    (hwf : ∀ e' ∈ events, 0 < e'.num_fragments)
    (hnf : 0 < e.num_fragments) (hfp : fp < e.num_fragments) (hbf : bf < bs) :
    (∃ txs, fdb_write_event_array events bs = some txs ∧ txs ≠ [] ∧
      (∀ t ∈ txs, t.length ≤ bs) ∧ txs.flatten = events.flatMap eventOps) ∧
    (e.num_fragments - fp < bs - bf →
      writeArrayStep bs ⟨e :: rest, fp, bf, tx, comm⟩ =
        ⟨rest, 0, bf + (e.num_fragments - fp),
          tx ++ (List.range' fp (e.num_fragments - fp)).map (eventOp e), comm⟩) ∧
    (bs - bf < e.num_fragments - fp →
      writeArrayStep bs ⟨e :: rest, fp, bf, tx, comm⟩ =
        ⟨e :: rest, fp + (bs - bf), 0, [],
          comm ++ [tx ++ (List.range' fp (bs - bf)).map (eventOp e)]⟩) ∧
    (e.num_fragments - fp = bs - bf →
      writeArrayStep bs ⟨e :: rest, fp, bf, tx, comm⟩ =
        ⟨rest, 0, 0, [], comm ++ [tx ++ (List.range' fp (bs - bf)).map (eventOp e)]⟩) := by
  refine ⟨?_, writeArrayStep_move bs e rest fp bf tx comm hnf hfp hbf,
    writeArrayStep_stay bs e rest fp bf tx comm hnf hfp hbf,
    writeArrayStep_exact bs e rest fp bf tx comm hnf hfp hbf⟩
  have hfuel : (pendingOps events 0).length + events.length <
      totalFragments events + events.length + 1 := by
    rw [pendingOps_zero, length_flatMap_eventOps]
    omega
  obtain ⟨s', newTxs, hloop, hpend, hcommit, hlen, htxlen, hflat⟩ :=
    writeArrayLoop_spec bs hbs (totalFragments events + events.length + 1) events 0 0 [] []
      hwf (fun e' rest' h => by subst h; exact hwf e' (List.mem_cons_self _ _))
      hbs rfl hfuel
  refine ⟨s'.committed ++ [s'.tx], ?_, by simp, ?_, ?_⟩
  · show (writeArrayLoop bs (totalFragments events + events.length + 1)
      ⟨events, 0, 0, [], []⟩).map (fun s => s.committed ++ [s.tx]) = _
    rw [hloop]
    rfl
  · intro t ht
    rcases List.mem_append.mp ht with ht | ht
    · rw [hcommit] at ht
      simp only [List.nil_append] at ht
      exact Nat.le_of_eq (hlen t ht)
    · have : t = s'.tx := by simpa using ht
      subst this
      omega
  · rw [List.flatten_append]
    simp only [List.flatten_cons, List.flatten_nil, List.append_nil]
    rw [hflat, pendingOps_zero]
    simp

theorem c5_batching_invariants_witness :
    ((0 : Nat) < 1 ∧ (∀ e' ∈ [(⟨7, 1, [0], 1, 1, [[9]]⟩ : FragmentedEvent)],
        0 < e'.num_fragments) ∧
      0 < (⟨1, 2, [1], 1, 1, [[3], [4]]⟩ : FragmentedEvent).num_fragments ∧
      0 < (⟨1, 2, [1], 1, 1, [[3], [4]]⟩ : FragmentedEvent).num_fragments ∧ (0 : Nat) < 1) ∧
    ((∃ txs, fdb_write_event_array [⟨7, 1, [0], 1, 1, [[9]]⟩] 1 = some txs ∧ txs ≠ [] ∧
      (∀ t ∈ txs, t.length ≤ 1) ∧
      txs.flatten = [(⟨7, 1, [0], 1, 1, [[9]]⟩ : FragmentedEvent)].flatMap eventOps) ∧
    ((⟨1, 2, [1], 1, 1, [[3], [4]]⟩ : FragmentedEvent).num_fragments - 0 < 1 - 0 →
      writeArrayStep 1 ⟨[⟨1, 2, [1], 1, 1, [[3], [4]]⟩, ⟨2, 1, [0], 1, 1, [[5]]⟩], 0, 0, [], []⟩ =
        ⟨[⟨2, 1, [0], 1, 1, [[5]]⟩], 0,
          0 + ((⟨1, 2, [1], 1, 1, [[3], [4]]⟩ : FragmentedEvent).num_fragments - 0),
          [] ++ (List.range' 0
            ((⟨1, 2, [1], 1, 1, [[3], [4]]⟩ : FragmentedEvent).num_fragments - 0)).map
            (eventOp ⟨1, 2, [1], 1, 1, [[3], [4]]⟩), []⟩) ∧
    (1 - 0 < (⟨1, 2, [1], 1, 1, [[3], [4]]⟩ : FragmentedEvent).num_fragments - 0 →
      writeArrayStep 1 ⟨[⟨1, 2, [1], 1, 1, [[3], [4]]⟩, ⟨2, 1, [0], 1, 1, [[5]]⟩], 0, 0, [], []⟩ =
        ⟨[⟨1, 2, [1], 1, 1, [[3], [4]]⟩, ⟨2, 1, [0], 1, 1, [[5]]⟩], 0 + (1 - 0), 0, [],
          [] ++ [[] ++ (List.range' 0 (1 - 0)).map (eventOp ⟨1, 2, [1], 1, 1, [[3], [4]]⟩)]⟩) ∧
    ((⟨1, 2, [1], 1, 1, [[3], [4]]⟩ : FragmentedEvent).num_fragments - 0 = 1 - 0 →
      writeArrayStep 1 ⟨[⟨1, 2, [1], 1, 1, [[3], [4]]⟩, ⟨2, 1, [0], 1, 1, [[5]]⟩], 0, 0, [], []⟩ =
        ⟨[⟨2, 1, [0], 1, 1, [[5]]⟩], 0, 0, [],
          [] ++ [[] ++ (List.range' 0 (1 - 0)).map (eventOp ⟨1, 2, [1], 1, 1, [[3], [4]]⟩)]⟩)) :=
  ⟨⟨by decide, by decide, by decide, by decide, by decide⟩,
    c5_batching_invariants [⟨7, 1, [0], 1, 1, [[9]]⟩] 1 ⟨1, 2, [1], 1, 1, [[3], [4]]⟩
      [⟨2, 1, [0], 1, 1, [[5]]⟩] 0 0 [] [] (by decide) (by decide) (by decide) (by decide)
      (by decide)⟩

--==============================================================================
-- Claim C4: batch boundaries for fragment counts {1, 10, 1} and batch size 4
--==============================================================================

/-- Claim C4 as stated is false: on three events with fragment counts
{1, 10, 1} and `batch_size = 4`, `fdb_write_event_array` commits 4
transactions, not `ceil(12/4) = 3` — the unconditional "catch the final,
non-full batch" send after the loop commits a fourth, empty transaction,
because the 12 fragments fill the first three batches exactly. -/
theorem c4_counterexample :
    ¬ (fdb_write_event_array
        [⟨1, 1, [0], 1, 1, [[5]]⟩, ⟨2, 10, [9], 1, 1, List.replicate 10 [6]⟩,
          ⟨3, 1, [0], 1, 1, [[7]]⟩] 4).map List.length = some 3 := by
  decide

/-- Claim C4, amended: on any three events with fragment counts {1, 10, 1}
and `batch_size = 4`, `fdb_write_event_array` commits exactly 4 transactions:
three full ones of exactly 4 fragment-set operations each, then a final empty
flush.  The first transaction carries event 1's single fragment and event 2's
fragments 0-2, the second carries event 2's fragments 3-6, and the third
carries event 2's fragments 7-9 and event 3's single fragment — so no
transaction contains fragments from more than two adjacent events. -/
theorem c4_batch_boundaries (e1 e2 e3 : FragmentedEvent)
    (h1 : e1.num_fragments = 1) (h2 : e2.num_fragments = 10) (h3 : e3.num_fragments = 1) :
    fdb_write_event_array [e1, e2, e3] 4 =
      some [(List.range' 0 1).map (eventOp e1) ++ (List.range' 0 3).map (eventOp e2),
        (List.range' 3 4).map (eventOp e2),
        (List.range' 7 3).map (eventOp e2) ++ (List.range' 0 1).map (eventOp e3), []] ∧
    (fdb_write_event_array [e1, e2, e3] 4).map (fun txs => txs.map List.length) =
      some [4, 4, 4, 0] := by
  have s1 : writeArrayStep 4 ⟨[e1, e2, e3], 0, 0, [], []⟩ =
      ⟨[e2, e3], 0, 1, (List.range' 0 1).map (eventOp e1), []⟩ := by
    rw [writeArrayStep_move 4 e1 [e2, e3] 0 0 [] [] (by rw [h1]; omega) (by rw [h1]; omega)
      (by omega) (by rw [h1]; omega)]
    rw [h1]
    norm_num
  have s2 : writeArrayStep 4 ⟨[e2, e3], 0, 1, (List.range' 0 1).map (eventOp e1), []⟩ =
      ⟨[e2, e3], 3, 0, [],
        [(List.range' 0 1).map (eventOp e1) ++ (List.range' 0 3).map (eventOp e2)]⟩ := by
    rw [writeArrayStep_stay 4 e2 [e3] 0 1 _ [] (by rw [h2]; omega) (by rw [h2]; omega)
      (by omega) (by rw [h2]; omega)]
    norm_num
  have s3 : writeArrayStep 4 ⟨[e2, e3], 3, 0, [],
      [(List.range' 0 1).map (eventOp e1) ++ (List.range' 0 3).map (eventOp e2)]⟩ =
      ⟨[e2, e3], 7, 0, [],
        [(List.range' 0 1).map (eventOp e1) ++ (List.range' 0 3).map (eventOp e2),
          (List.range' 3 4).map (eventOp e2)]⟩ := by
    rw [writeArrayStep_stay 4 e2 [e3] 3 0 [] _ (by rw [h2]; omega) (by rw [h2]; omega)
      (by omega) (by rw [h2]; omega)]
    norm_num
  have s4 : writeArrayStep 4 ⟨[e2, e3], 7, 0, [],
      [(List.range' 0 1).map (eventOp e1) ++ (List.range' 0 3).map (eventOp e2),
        (List.range' 3 4).map (eventOp e2)]⟩ =
      ⟨[e3], 0, 3, (List.range' 7 3).map (eventOp e2),
        [(List.range' 0 1).map (eventOp e1) ++ (List.range' 0 3).map (eventOp e2),
          (List.range' 3 4).map (eventOp e2)]⟩ := by
    rw [writeArrayStep_move 4 e2 [e3] 7 0 [] _ (by rw [h2]; omega) (by rw [h2]; omega)
      (by omega) (by rw [h2]; omega)]
    rw [h2]
    norm_num
  have s5 : writeArrayStep 4 ⟨[e3], 0, 3, (List.range' 7 3).map (eventOp e2),
      [(List.range' 0 1).map (eventOp e1) ++ (List.range' 0 3).map (eventOp e2),
        (List.range' 3 4).map (eventOp e2)]⟩ =
      ⟨[], 0, 0, [],
        [(List.range' 0 1).map (eventOp e1) ++ (List.range' 0 3).map (eventOp e2),
          (List.range' 3 4).map (eventOp e2),
          (List.range' 7 3).map (eventOp e2) ++ (List.range' 0 1).map (eventOp e3)]⟩ := by
    rw [writeArrayStep_exact 4 e3 [] 0 3 _ _ (by rw [h3]; omega) (by rw [h3]; omega)
      (by omega) (by rw [h3])]
    simp
  have hmain : fdb_write_event_array [e1, e2, e3] 4 =
      some [(List.range' 0 1).map (eventOp e1) ++ (List.range' 0 3).map (eventOp e2),
        (List.range' 3 4).map (eventOp e2),
        (List.range' 7 3).map (eventOp e2) ++ (List.range' 0 1).map (eventOp e3), []] := by
    show (writeArrayLoop 4 (totalFragments [e1, e2, e3] + [e1, e2, e3].length + 1)
      ⟨[e1, e2, e3], 0, 0, [], []⟩).map (fun s => s.committed ++ [s.tx]) = _
    have hfuel : totalFragments [e1, e2, e3] + [e1, e2, e3].length + 1 = 16 := by
      simp [totalFragments, h1, h2, h3]
    rw [hfuel]
    rw [show (16 : Nat) = 15 + 1 from rfl, writeArrayLoop_cons, s1]
    rw [show (15 : Nat) = 14 + 1 from rfl, writeArrayLoop_cons, s2]
    rw [show (14 : Nat) = 13 + 1 from rfl, writeArrayLoop_cons, s3]
    rw [show (13 : Nat) = 12 + 1 from rfl, writeArrayLoop_cons, s4]
    rw [show (12 : Nat) = 11 + 1 from rfl, writeArrayLoop_cons, s5]
    rw [show (11 : Nat) = 10 + 1 from rfl, writeArrayLoop_nil]
    rfl
  refine ⟨hmain, ?_⟩
  rw [hmain]
  simp [List.length_range', h1, h2, h3]

theorem c4_batch_boundaries_witness :
    ((⟨1, 1, [0], 1, 1, [[5]]⟩ : FragmentedEvent).num_fragments = 1 ∧
      (⟨2, 10, [9], 1, 1, List.replicate 10 [6]⟩ : FragmentedEvent).num_fragments = 10 ∧
      (⟨3, 1, [0], 1, 1, [[7]]⟩ : FragmentedEvent).num_fragments = 1) ∧
    (fdb_write_event_array
        [⟨1, 1, [0], 1, 1, [[5]]⟩, ⟨2, 10, [9], 1, 1, List.replicate 10 [6]⟩,
          ⟨3, 1, [0], 1, 1, [[7]]⟩] 4 =
      some [(List.range' 0 1).map (eventOp ⟨1, 1, [0], 1, 1, [[5]]⟩) ++
          (List.range' 0 3).map (eventOp ⟨2, 10, [9], 1, 1, List.replicate 10 [6]⟩),
        (List.range' 3 4).map (eventOp ⟨2, 10, [9], 1, 1, List.replicate 10 [6]⟩),
        (List.range' 7 3).map (eventOp ⟨2, 10, [9], 1, 1, List.replicate 10 [6]⟩) ++
          (List.range' 0 1).map (eventOp ⟨3, 1, [0], 1, 1, [[7]]⟩), []] ∧
    (fdb_write_event_array
        [⟨1, 1, [0], 1, 1, [[5]]⟩, ⟨2, 10, [9], 1, 1, List.replicate 10 [6]⟩,
          ⟨3, 1, [0], 1, 1, [[7]]⟩] 4).map (fun txs => txs.map List.length) =
      some [4, 4, 4, 0]) :=
  ⟨⟨rfl, rfl, rfl⟩,
    c4_batch_boundaries ⟨1, 1, [0], 1, 1, [[5]]⟩ ⟨2, 10, [9], 1, 1, List.replicate 10 [6]⟩
      ⟨3, 1, [0], 1, 1, [[7]]⟩ rfl rfl rfl⟩

--==============================================================================
-- Claim C6: a failed read is all-or-nothing
--==============================================================================

/-- Claim C6: `fdb_read_event` returns an error — and hands the caller no
buffer at all — whenever some returned fragment value after the first is not
exactly `OPTIMAL_VALUE_SIZE` bytes, or the number of keys returned differs
from the fragment count declared in the first value's header (the decoded
additional count plus one, on `uint32_t`).  The side conditions keep the
model inside the C code's defined behavior: the page is a single non-empty
range-read page, the first value is long enough for its own header (the C
code reads `header_bytes` bytes past it otherwise), the declared extension
fits the 4-byte output location, and the page has at most 255 entries (the
`uint8_t` fragment-copy counter would otherwise wrap and loop forever). -/
theorem c6_read_error_all_or_nothing (store : Store) (id : Nat) (kv0 : Op) (rest : List Op)
    (hpage : storeGetRange (fdb_build_event_key id 0) (fdb_build_event_key (id + 1) 0) store =
      kv0 :: rest)
    (hsafe1 : (read_header kv0.2 0).2 ≤ kv0.2.length)
    (hsafe2 : (read_header kv0.2 0).2 ≤ MAX_HEADER_SIZE + 1)
    (hpagelen : (kv0 :: rest).length ≤ 255)
    (hfail : (∃ v ∈ rest, v.2.length ≠ OPTIMAL_VALUE_SIZE) ∨
      ((read_header kv0.2 0).1 + 1) % 2 ^ 32 ≠ (kv0 :: rest).length) :
    fdb_read_event store id = none := by
  rw [fdb_read_event_of_page store id kv0 rest hpage]
  rcases hfail with ⟨v, hv, hlen⟩ | hcount
  · have hall : ((rest.map fun kv => kv.2).all fun v => v.length == OPTIMAL_VALUE_SIZE) =
        false := by
      rw [List.all_eq_false]
      exact ⟨v.2, List.mem_map.mpr ⟨v, hv, rfl⟩, by simp [hlen]⟩
    rw [hall]
    simp
  · by_cases hall : ((rest.map fun kv => kv.2).all fun v => v.length == OPTIMAL_VALUE_SIZE) =
        true
    · rw [if_pos hall, if_neg hcount]
    · rw [if_neg hall]

theorem c6_read_error_all_or_nothing_witness :
    (storeGetRange (fdb_build_event_key 5 0) (fdb_build_event_key (5 + 1) 0)
        [(fdb_build_event_key 5 0, [0, 1, 2]), (fdb_build_event_key 5 1, [9, 9])] =
      (fdb_build_event_key 5 0, ([0, 1, 2] : Value)) ::
        [(fdb_build_event_key 5 1, [9, 9])] ∧
      (read_header [0, 1, 2] 0).2 ≤ ([0, 1, 2] : List Nat).length ∧
      (read_header [0, 1, 2] 0).2 ≤ MAX_HEADER_SIZE + 1 ∧
      ((fdb_build_event_key 5 0, ([0, 1, 2] : Value)) ::
        [(fdb_build_event_key 5 1, [9, 9])]).length ≤ 255 ∧
      ((∃ v ∈ [((fdb_build_event_key 5 1 : Key), ([9, 9] : Value))],
          v.2.length ≠ OPTIMAL_VALUE_SIZE) ∨
        ((read_header [0, 1, 2] 0).1 + 1) % 2 ^ 32 ≠
          ((fdb_build_event_key 5 0, ([0, 1, 2] : Value)) ::
            [(fdb_build_event_key 5 1, [9, 9])]).length)) ∧
    fdb_read_event [(fdb_build_event_key 5 0, [0, 1, 2]), (fdb_build_event_key 5 1, [9, 9])]
      5 = none :=
  ⟨⟨by decide, by decide, by decide, by decide, Or.inl ⟨(fdb_build_event_key 5 1, [9, 9]),
      by decide, by decide⟩⟩,
    c6_read_error_all_or_nothing _ 5 (fdb_build_event_key 5 0, [0, 1, 2])
      [(fdb_build_event_key 5 1, [9, 9])] (by decide) (by decide) (by decide) (by decide)
      (Or.inl ⟨(fdb_build_event_key 5 1, [9, 9]), by decide, by decide⟩)⟩

end Seguro
